import Mathlib

/-!
Verification of the road-network reconstruction pipeline
(`road_LW.py`, `create_map.py`, `laldarwaja.py`).

Coordinates are modelled as rational pairs (the Python floats are IEEE
doubles; all algorithmic branching in the pipeline compares a Euclidean
distance against a tolerance, which over rational inputs is decided
exactly by comparing squared quantities, see `distLt_iff_dist_lt`).
The in-place pool mutation of the Python `while` loops is modelled by
explicit state passing; each loop consumes at most one pool element per
iteration, so a fuel argument equal to the pool length makes every loop
a structural recursion while computing exactly the loop's fixpoint.
-/

namespace RoadMap


/-- A planar point `(x, y)` in drawing units. -/
abbrev Pt : Type := ℚ × ℚ

/-- Default point used only to totalise `head`/`last` on the empty list
(the Python code would raise `IndexError` there; all claims are stated
for nonempty polylines). -/
def z : Pt := (0, 0)

/-- A polyline: ordered list of points. -/
abbrev Polyline : Type := List Pt

/-- Squared Euclidean distance (rational, exactly computable). -/
def sqDist (p1 p2 : Pt) : ℚ :=
  (p2.1 - p1.1) * (p2.1 - p1.1) + (p2.2 - p1.2) * (p2.2 - p1.2)

/-- Function `dist` from the source: Euclidean distance
`math.hypot(p2[0]-p1[0], p2[1]-p1[1])`. -/
noncomputable def dist (p1 p2 : Pt) : ℝ :=
  Real.sqrt ((sqDist p1 p2 : ℚ) : ℝ)

/-- The branching test `dist(p1, p2) < tolerance` of the source, as a
decidable predicate over the rationals: for `t > 0` it compares squared
distances, and for `t ≤ 0` it is false since a distance is nonnegative.
`distLt_iff_dist_lt` proves it equivalent to the source's real test. -/
def distLt (p1 p2 : Pt) (t : ℚ) : Prop :=
  0 < t ∧ sqDist p1 p2 < t * t

instance (p1 p2 : Pt) (t : ℚ) : Decidable (distLt p1 p2 t) := by
  unfold distLt; infer_instance

/-- Function `polyline_length` from the source: sum of consecutive distances. -/
noncomputable def polyline_length : Polyline → ℝ
  | [] => 0
  | [_] => 0
  | p :: q :: rest => dist p q + polyline_length (q :: rest)

/-- The two endpoints (`pl[0]` and `pl[-1]`) of a polyline. -/
def endpoints (pl : Polyline) : List Pt :=
  [pl.headD z, pl.getLastD z]

/-- One candidate test of the inner `for` loop of `merge_polylines`: the four
endpoint cases, in source order, with the corresponding splice.  Returns
`none` when `other` does not attach to `current`. -/
def spliceStep (t : ℚ) (current other : Polyline) : Option Polyline :=
  if distLt (current.getLastD z) (other.headD z) t then
    some (current ++ other.tail)
  else if distLt (current.headD z) (other.getLastD z) t then
    some (other.dropLast ++ current)
  else if distLt (current.headD z) (other.headD z) t then
    some (other.reverse.dropLast ++ current)
  else if distLt (current.getLastD z) (other.getLastD z) t then
    some (current ++ other.reverse.tail)
  else none

/-- The `for i, other in enumerate(polylines)` scan of `merge_polylines`:
find the first pool element that attaches to `current`; return the spliced
accumulator and the pool with that element removed. -/
def scanPool (t : ℚ) (current : Polyline) : List Polyline → Option (Polyline × List Polyline)
  | [] => none
  | other :: rest =>
    match spliceStep t current other with
    | some cur2 => some (cur2, rest)
    | none =>
      match scanPool t current rest with
      | some (cur2, rest2) => some (cur2, other :: rest2)
      | none => none

/-- The inner `while merged_flag` loop of `merge_polylines`: repeat the scan
until no pool element attaches.  Each successful scan removes one pool
element, so fuel `pool.length` computes the exact loop fixpoint. -/
def growCurrent (t : ℚ) : ℕ → Polyline → List Polyline → Polyline × List Polyline
  | 0, cur, pool => (cur, pool)
  | fuel + 1, cur, pool =>
    match scanPool t cur pool with
    | none => (cur, pool)
    | some (cur2, pool2) => growCurrent t fuel cur2 pool2

/-- The outer `while polylines` loop of `merge_polylines`: pop the last pool
element as the accumulator, grow it, append it to the result.  The second
component is the final state of the pool list (the caller's list object in
`road_LW.py`, which is mutated in place).  Each iteration removes at least
one pool element, so fuel `pool.length` computes the exact loop fixpoint. -/
def mergeLoop (t : ℚ) : ℕ → List Polyline → List Polyline → List Polyline × List Polyline
  | 0, pool, acc => (acc, pool)
  | fuel + 1, pool, acc =>
    match pool with
    | [] => (acc, [])
    | _ :: _ =>
      let cur := pool.getLastD []
      let rest := pool.dropLast
      let r := growCurrent t rest.length cur rest
      mergeLoop t fuel r.2 (acc ++ [r.1])

/-- Function `merge_polylines` (identical in `road_LW.py`, `create_map.py` and
`laldarwaja.py`): returned merged list. -/
def merge_polylines (polylines : List Polyline) (tolerance : ℚ) : List Polyline :=
  (mergeLoop tolerance polylines.length polylines []).1

/-- Final contents of the `polylines` argument after `road_LW.merge_polylines`
returns (that version pops from the caller's list directly, without copying). -/
def merge_polylines_pool_after (polylines : List Polyline) (tolerance : ℚ) : List Polyline :=
  (mergeLoop tolerance polylines.length polylines []).2

/-- The proximity test of `cluster_roads`:
`any(dist(p1, p2) < cluster_distance for p1 in [base[0], base[-1]]
for p2 in [other[0], other[-1]])`. -/
def EndClose (d : ℚ) (base other : Polyline) : Prop :=
  ∃ p1 ∈ endpoints base, ∃ p2 ∈ endpoints other, distLt p1 p2 d

instance (d : ℚ) (base other : Polyline) : Decidable (EndClose d base other) := by
  unfold EndClose; infer_instance

/-- One pass of the inner `for i, other in enumerate(roads)` loop of
`cluster_roads`: every matching element is folded into `base` (appending its
points that are not already in `base`, by exact equality) and marked for
removal; the pass continues scanning with the grown `base`.  Returns the
grown base, the surviving pool (matched elements removed), and the
`changed` flag. -/
def clusterPass (d : ℚ) : Polyline → List Polyline → Polyline × List Polyline × Bool
  | base, [] => (base, [], false)
  | base, other :: rest =>
    if EndClose d base other then
      let r := clusterPass d (base ++ other.filter (fun pt => decide (pt ∉ base))) rest
      (r.1, r.2.1, true)
    else
      let r := clusterPass d base rest
      (r.1, other :: r.2.1, r.2.2)

/-- The inner `while changed` loop of `cluster_roads`: repeat passes until one
makes no change.  Each changing pass removes at least one pool element, so
fuel `pool.length + 1` computes the exact loop fixpoint. -/
def clusterGrow (d : ℚ) : ℕ → Polyline → List Polyline → Polyline × List Polyline
  | 0, base, pool => (base, pool)
  | fuel + 1, base, pool =>
    let r := clusterPass d base pool
    if r.2.2 then clusterGrow d fuel r.1 r.2.1 else (r.1, r.2.1)

/-- The outer `while roads` loop of `cluster_roads`; second component is the
final state of the `roads` argument (mutated in place in `road_LW.py`). -/
def clusterLoop (d : ℚ) : ℕ → List Polyline → List Polyline → List Polyline × List Polyline
  | 0, pool, acc => (acc, pool)
  | fuel + 1, pool, acc =>
    match pool with
    | [] => (acc, [])
    | _ :: _ =>
      let base := pool.getLastD []
      let rest := pool.dropLast
      let r := clusterGrow d (rest.length + 1) base rest
      clusterLoop d fuel r.2 (acc ++ [r.1])

/-- Function `cluster_roads` (identical in `road_LW.py`, `create_map.py` and
`laldarwaja.py`): returned clustered list. -/
def cluster_roads (roads : List Polyline) (cluster_distance : ℚ) : List Polyline :=
  (clusterLoop cluster_distance roads.length roads []).1

/-- Final contents of the `roads` argument after `road_LW.cluster_roads`
returns. -/
def cluster_roads_pool_after (roads : List Polyline) (cluster_distance : ℚ) : List Polyline :=
  (clusterLoop cluster_distance roads.length roads []).2

/-! ### Endpoint separation: the inner scan stops exactly when the
accumulator's endpoints are ≥ tolerance away from every pool element's
endpoints. -/

/-- Two polylines have no endpoint pair within the tolerance. -/
def SepPls (t : ℚ) (A B : Polyline) : Prop :=
  ∀ a ∈ endpoints A, ∀ b ∈ endpoints B, ¬ distLt a b t

/-! ### Point bookkeeping: each splice of the merge drops exactly one point
of the absorbed polyline (the shared near-duplicate endpoint); nothing else
is dropped, invented or duplicated. -/

/-- The multiset of all points of a collection of polylines. -/
def allPts (L : List Polyline) : Multiset Pt :=
  (L.map (fun pl => (pl : Multiset Pt))).sum

/-! ### Survival of an isolated single-point polyline in the merge. -/

/-- All endpoints of `B` are at distance ≥ tolerance from the point `p`. -/
def FarP (t : ℚ) (p : Pt) (B : Polyline) : Prop :=
  ∀ e ∈ endpoints B, ¬ distLt p e t

/-! ### Width estimation (`bearing`, `angle_difference`,
`average_polyline_distance`, `find_parallel_edge`) and the pipeline tail
(extraction filter, road emission), embedded from `road_LW.py` and
`laldarwaja.py`. -/

open Classical in
/-- Function `math.atan2`, split by the sign of the arguments as the C library
defines it (signed IEEE zeros do not exist over ℚ inputs). -/
noncomputable def atan2 (y x : ℝ) : ℝ :=
  if 0 < x then Real.arctan (y / x)
  else if x < 0 ∧ 0 ≤ y then Real.arctan (y / x) + Real.pi
  else if x < 0 then Real.arctan (y / x) - Real.pi
  else if 0 < y then Real.pi / 2
  else if y < 0 then -(Real.pi / 2)
  else 0

/-- Function `math.degrees`. -/
noncomputable def degrees (x : ℝ) : ℝ := x * 180 / Real.pi

/-- Python's float `%` operator: `a - b * floor(a / b)`. -/
noncomputable def realMod (a b : ℝ) : ℝ := a - b * ⌊a / b⌋

/-- Function `bearing` from the source: angle in degrees of the line from `p1` to
`p2`, normalised to `[0, 360)` by `(ang + 360) % 360`. -/
noncomputable def bearing (p1 p2 : Pt) : ℝ :=
  realMod (degrees (atan2 ((p2.2 - p1.2 : ℚ) : ℝ) ((p2.1 - p1.1 : ℚ) : ℝ)) + 360) 360

open Classical in
/-- Function `angle_difference` from the source:
`diff = abs(a1 - a2) % 360; return diff if diff <= 180 else 360 - diff`. -/
noncomputable def angle_difference (a1 a2 : ℝ) : ℝ :=
  if realMod |a1 - a2| 360 ≤ 180 then realMod |a1 - a2| 360
  else 360 - realMod |a1 - a2| 360

/-- Expression `min(dist(p, q) for q in pl2)` — Python's `min` over a nonempty
sequence (`0` on the empty list, which the callers rule out). -/
noncomputable def minVertexDist (p : Pt) : Polyline → ℝ
  | [] => 0
  | q :: rest => (rest.map (dist p)).foldl min (dist p q)

open Classical in
/-- The `while seg_index < len(pl1) - 1 and seg_accum < step * (s + 1)`
walk of `average_polyline_distance`; fuel `pl1.length` bounds the
iteration count since `seg_index` strictly increases towards
`len(pl1) - 1`.  State: `(seg_index, seg_accum, p_start)`. -/
noncomputable def advanceTo (pl1 : Polyline) (target : ℝ) :
    ℕ → ℕ → ℝ → Pt → ℕ × ℝ × Pt
  | 0, segIndex, segAccum, pStart => (segIndex, segAccum, pStart)
  | fuel + 1, segIndex, segAccum, pStart =>
    if segIndex < pl1.length - 1 ∧ segAccum < target then
      advanceTo pl1 target fuel (segIndex + 1)
        (segAccum + dist (pl1.getD segIndex z) (pl1.getD (segIndex + 1) z))
        (pl1.getD (segIndex + 1) z)
    else (segIndex, segAccum, pStart)

/-- The `for s in range(samples)` loop of `average_polyline_distance`:
first argument is the number of remaining samples, second the current
sample index `s`. -/
noncomputable def sampleLoop (pl1 pl2 : Polyline) (step : ℝ) :
    ℕ → ℕ → ℕ → ℝ → Pt → List ℝ → List ℝ
  | 0, _, _, _, _, dists => dists
  | n + 1, s, segIndex, segAccum, pStart, dists =>
    let r := advanceTo pl1 (step * ((s : ℝ) + 1)) pl1.length segIndex segAccum pStart
    sampleLoop pl1 pl2 step n (s + 1) r.1 r.2.1 r.2.2
      (dists ++ [minVertexDist r.2.2 pl2])

/-- Function `np.mean` on a list of floats. -/
noncomputable def npMean (l : List ℝ) : ℝ := l.sum / l.length

open Classical in
/-- Function `average_polyline_distance` from `road_LW.py`. -/
noncomputable def average_polyline_distance (pl1 pl2 : Polyline) (samples : ℕ) : ℝ :=
  if pl1 = [] ∨ pl2 = [] then 0
  else if polyline_length pl1 = 0 then 0
  else if sampleLoop pl1 pl2 (polyline_length pl1 / samples) samples 0 0 0 (pl1.headD z) []
      = [] then 0
  else npMean (sampleLoop pl1 pl2 (polyline_length pl1 / samples) samples 0 0 0
    (pl1.headD z) [])

open Classical in
/-- The `for other in all_roads` loop of `find_parallel_edge`, carrying
`(closest_edge, closest_dist)`.  The Python `other is target` object
identity test is modelled as value equality (the final road lists contain
distinct list objects). -/
noncomputable def fpeLoop (target : Polyline) (mainAngle : ℝ) (angle_tol : ℚ) :
    List Polyline → Option Polyline → Option ℝ → Option Polyline × Option ℝ
  | [], ce, cd => (ce, cd)
  | other :: rest, ce, cd =>
    if other = target then fpeLoop target mainAngle angle_tol rest ce cd
    else if angle_difference mainAngle (bearing (other.headD z) (other.getLastD z))
        ≤ (angle_tol : ℝ) then
      if 0 < average_polyline_distance target other 10 ∧
          cd.elim True (fun c => average_polyline_distance target other 10 < c) then
        fpeLoop target mainAngle angle_tol rest (some other)
          (some (average_polyline_distance target other 10))
      else fpeLoop target mainAngle angle_tol rest ce cd
    else fpeLoop target mainAngle angle_tol rest ce cd

/-- Function `find_parallel_edge` from `road_LW.py` (the `create_map.py` and
`laldarwaja.py` copies return `closest_dist if closest_dist is not None
else 0`, and `road_LW.py` tests truthiness, which agrees because every
stored distance is positive). -/
noncomputable def find_parallel_edge (target : Polyline) (all_roads : List Polyline)
    (angle_tol : ℚ) : Option Polyline × ℝ :=
  let mainAngle := bearing (target.headD z) (target.getLastD z)
  let r := fpeLoop target mainAngle angle_tol all_roads none none
  (r.1, r.2.getD 0)

/-- One `LWPOLYLINE` vertex, as returned by `e.get_points()`:
`(x, y, start_width, end_width, …)`, the widths possibly missing. -/
structure LWVertex where
  x : ℚ
  y : ℚ
  start_width : Option ℚ
  end_width : Option ℚ

/-- One `LWPOLYLINE` entity: its DXF layer plus its vertices. -/
structure LWEntity where
  layer : String
  verts : List LWVertex

open Classical in
/-- Function `extract_polylines` from `road_LW.py`, over the queried `LWPOLYLINE`
entities: keep a polyline and its averaged explicit vertex width when the
entity lies on a road layer and is longer than 10 drawing units. -/
noncomputable def extract_polylines : List LWEntity → List String → List Polyline × List ℚ
  | [], _ => ([], [])
  | e :: rest, road_layers =>
    let r := extract_polylines rest road_layers
    if e.layer ∈ road_layers then
      let pts := e.verts.map (fun v => (v.x, v.y))
      let vertex_widths := e.verts.map
        (fun v => ((v.start_width.getD 0) + (v.end_width.getD 0)) / 2)
      let avg_width : ℚ :=
        if vertex_widths = [] then 0 else vertex_widths.sum / (vertex_widths.length : ℚ)
      if 10 < polyline_length pts then (pts :: r.1, avg_width :: r.2) else r
    else r

/-- Rounding `round(float(c), 2)`: round to two decimals, ties to even. -/
def roundHalfEven (y : ℚ) : ℤ :=
  let n := ⌊y⌋
  let f := y - n
  if f < 1 / 2 then n
  else if 1 / 2 < f then n + 1
  else if Even n then n else n + 1

def round2 (x : ℚ) : ℚ := (roundHalfEven (x * 100) : ℚ) / 100

/-- The final road record emitted by `laldarwaja.analyze_roads`
(`results.append({...})`): exactly the keys of that dict, nothing else. -/
structure Road where
  index : ℕ
  start : Pt
  endPt : Pt
  length_units : ℝ
  length_m : ℝ
  width_units : ℝ
  width_m : ℝ
  points : Polyline

open Classical in
/-- One iteration of the emission loop of `analyze_roads`:
`scale` models `self.scale_factor` inside `convert_to_meters`. -/
noncomputable def mkRoad (i : ℕ) (road : Polyline) (final_roads : List Polyline)
    (global_avg_width : ℚ) (angle_tol : ℚ) (scale : ℚ) : Road :=
  let length_units := polyline_length road
  let w_units : ℝ :=
    if 0 < global_avg_width then (global_avg_width : ℝ)
    else (find_parallel_edge road final_roads angle_tol).2
  { index := i
    start := (round2 (road.headD z).1, round2 (road.headD z).2)
    endPt := (round2 (road.getLastD z).1, round2 (road.getLastD z).2)
    length_units := length_units
    length_m := length_units * (scale : ℝ)
    width_units := w_units
    width_m := w_units * (scale : ℝ)
    points := road }

open Classical in
/-- Step 3 of `analyze_roads` / `road_LW.main`: keep corridors longer than
`min_length_units`, truncate to `max_roads`. -/
noncomputable def finalRoads (clustered : List Polyline) (min_length_units : ℚ)
    (max_roads : ℕ) : List Polyline :=
  (clustered.filter fun r => decide ((min_length_units : ℝ) < polyline_length r)).take max_roads

open Classical in
/-- Function `laldarwaja.analyze_roads`, from the extracted polylines and explicit
widths to the emitted `Road` records. -/
noncomputable def analyze_roads (road_polys : List Polyline) (road_widths_raw : List ℚ)
    (merge_tolerance cluster_distance angle_tol scale min_length_units : ℚ)
    (max_roads : ℕ) : List Road :=
  let merged := merge_polylines road_polys merge_tolerance
  let clustered := cluster_roads merged cluster_distance
  let final_roads := finalRoads clustered min_length_units max_roads
  let explicit_widths := road_widths_raw.filter (fun w => decide (0 < w))
  let global_avg_width : ℚ :=
    if explicit_widths = [] then 0 else explicit_widths.sum / (explicit_widths.length : ℚ)
  final_roads.enum.map
    (fun jr => mkRoad (jr.1 + 1) jr.2 final_roads global_avg_width angle_tol scale)

/-! ## Lemmas and claim theorems -/

lemma sqDist_nonneg (p1 p2 : Pt) : 0 ≤ sqDist p1 p2 :=
  add_nonneg (mul_self_nonneg _) (mul_self_nonneg _)

lemma sqDist_comm (p1 p2 : Pt) : sqDist p1 p2 = sqDist p2 p1 := by
  unfold sqDist; ring

/-- The decidable test agrees with the source's real-valued test. -/
lemma distLt_iff_dist_lt (p1 p2 : Pt) (t : ℚ) :
    distLt p1 p2 t ↔ dist p1 p2 < (t : ℝ) := by
  unfold distLt dist
  constructor
  · rintro ⟨ht, hsq⟩
    have ht' : (0 : ℝ) < (t : ℝ) := by exact_mod_cast ht
    rw [show ((t : ℝ)) = Real.sqrt ((t : ℝ) * (t : ℝ)) by
      rw [Real.sqrt_mul_self ht'.le]]
    apply Real.sqrt_lt_sqrt
    · exact_mod_cast sqDist_nonneg p1 p2
    · exact_mod_cast hsq
  · intro h
    have hnn : (0 : ℝ) ≤ Real.sqrt ((sqDist p1 p2 : ℚ) : ℝ) := Real.sqrt_nonneg _
    have ht' : (0 : ℝ) < (t : ℝ) := lt_of_le_of_lt hnn h
    have ht : (0 : ℚ) < t := by exact_mod_cast ht'
    refine ⟨ht, ?_⟩
    have hsq : ((sqDist p1 p2 : ℚ) : ℝ) < (t : ℝ) ^ 2 :=
      (Real.sqrt_lt' ht').mp h
    have hsq' : ((sqDist p1 p2 : ℚ) : ℝ) < (t : ℝ) * (t : ℝ) := by
      rw [← pow_two]; exact hsq
    exact_mod_cast hsq'

lemma distLt_symm {p1 p2 : Pt} {t : ℚ} (h : distLt p1 p2 t) : distLt p2 p1 t := by
  rcases h with ⟨ht, hsq⟩
  exact ⟨ht, by rwa [sqDist_comm]⟩

lemma polyline_length_nonneg (pl : Polyline) : 0 ≤ polyline_length pl := by
  induction pl with
  | nil => simp [polyline_length]
  | cons p rest ih =>
    cases rest with
    | nil => simp [polyline_length]
    | cons q rest' =>
      have := Real.sqrt_nonneg ((sqDist p q : ℚ) : ℝ)
      simp only [polyline_length]
      have : 0 ≤ dist p q := Real.sqrt_nonneg _
      linarith [ih]

/-! ### Helper list lemmas -/

lemma headD_append_of_ne_nil {α : Type _} {l : List α} (m : List α) (h : l ≠ []) (d : α) :
    (l ++ m).headD d = l.headD d := by
  cases l with
  | nil => exact absurd rfl h
  | cons a t => simp

lemma getLastD_congr {α : Type _} {l : List α} (h : l ≠ []) (d d' : α) :
    l.getLastD d = l.getLastD d' := by
  cases l with
  | nil => exact absurd rfl h
  | cons a t => rw [List.getLastD_cons, List.getLastD_cons]

lemma getLastD_append_of_ne_nil {α : Type _} (l : List α) {m : List α} (h : m ≠ []) (d : α) :
    (l ++ m).getLastD d = m.getLastD d := by
  induction l with
  | nil => simp
  | cons a t ih =>
    have ht : t ++ m ≠ [] := fun hc => h ((List.append_eq_nil.mp hc).2)
    rw [List.cons_append, List.getLastD_cons]
    rw [getLastD_congr ht a d, ih]

lemma headD_reverse {α : Type _} (l : List α) (d : α) :
    l.reverse.headD d = l.getLastD d := by
  induction l with
  | nil => simp
  | cons a t ih =>
    cases t with
    | nil => simp [List.getLastD]
    | cons b u =>
      rw [List.getLastD_cons, List.reverse_cons]
      rw [headD_append_of_ne_nil _ (by simp) d, ih]
      exact getLastD_congr (by simp) d a

lemma getLastD_reverse {α : Type _} (l : List α) (d : α) :
    l.reverse.getLastD d = l.headD d := by
  have h := headD_reverse l.reverse d
  rw [List.reverse_reverse] at h
  exact h.symm

lemma headD_dropLast_of_ne_nil {α : Type _} {l : List α} (h : l.dropLast ≠ []) (d : α) :
    l.dropLast.headD d = l.headD d := by
  cases l with
  | nil => simp at h
  | cons a t =>
    cases t with
    | nil => simp at h
    | cons b u => rfl

lemma getLastD_tail_of_ne_nil {α : Type _} {l : List α} (h : l.tail ≠ []) (d : α) :
    l.tail.getLastD d = l.getLastD d := by
  cases l with
  | nil => simp at h
  | cons a t =>
    cases t with
    | nil => simp at h
    | cons b u =>
      show (b :: u).getLastD d = (a :: b :: u).getLastD d
      exact (getLastD_congr (l := b :: u) (by simp) d a).trans
        (List.getLastD_cons d a (b :: u)).symm

lemma getLastD_mem {α : Type _} : ∀ (l : List α) (d : α), l ≠ [] → l.getLastD d ∈ l
  | [], _, h => absurd rfl h
  | [a], d, _ => by simp [List.getLastD]
  | a :: b :: u, d, _ => by
    rw [List.getLastD_cons]
    exact List.mem_cons_of_mem a (getLastD_mem (b :: u) a (by simp))

lemma headD_mem {α : Type _} {l : List α} (h : l ≠ []) (d : α) :
    l.headD d ∈ l := by
  cases l with
  | nil => exact absurd rfl h
  | cons a t => simp

lemma dropLast_append_getLastD {α : Type _} : ∀ (l : List α) (d : α), l ≠ [] →
    l.dropLast ++ [l.getLastD d] = l
  | [], _, h => absurd rfl h
  | [a], d, _ => by simp [List.getLastD]
  | a :: b :: u, d, _ => by
    rw [List.getLastD_cons]
    have := dropLast_append_getLastD (b :: u) a (by simp)
    rw [show (a :: b :: u).dropLast = a :: (b :: u).dropLast from rfl, List.cons_append, this]

lemma dropLast_subset_mem {α : Type _} {l : List α} {x : α} (h : x ∈ l.dropLast) : x ∈ l :=
  List.dropLast_subset l h

lemma sepPls_symm {t : ℚ} {A B : Polyline} (h : SepPls t A B) : SepPls t B A :=
  fun b hb a ha hlt => h a ha b hb (distLt_symm hlt)

lemma spliceStep_none_iff {t : ℚ} {cur other : Polyline} :
    spliceStep t cur other = none ↔ SepPls t cur other := by
  constructor
  · intro h a ha b hb
    unfold spliceStep at h
    split_ifs at h with h1 h2 h3 h4
    simp only [endpoints, List.mem_cons, List.mem_singleton, List.not_mem_nil,
      or_false] at ha hb
    rcases ha with ha | ha <;> rcases hb with hb | hb <;> subst ha <;> subst hb
    · exact h3
    · exact h2
    · exact h1
    · exact h4
  · intro h
    have e1 : cur.headD z ∈ endpoints cur := by simp [endpoints]
    have e2 : cur.getLastD z ∈ endpoints cur := by simp [endpoints]
    have f1 : other.headD z ∈ endpoints other := by simp [endpoints]
    have f2 : other.getLastD z ∈ endpoints other := by simp [endpoints]
    unfold spliceStep
    rw [if_neg (h _ e2 _ f1), if_neg (h _ e1 _ f2), if_neg (h _ e1 _ f1),
      if_neg (h _ e2 _ f2)]

lemma scanPool_none_iff {t : ℚ} {cur : Polyline} {pool : List Polyline} :
    scanPool t cur pool = none ↔ ∀ other ∈ pool, spliceStep t cur other = none := by
  induction pool with
  | nil => simp [scanPool]
  | cons o rest ih =>
    cases hs : spliceStep t cur o with
    | some c2 =>
      rw [scanPool, hs]
      simp only [List.mem_cons]
      constructor
      · intro h; exact absurd h (by simp)
      · intro h; exact absurd (h o (Or.inl rfl)) (by simp [hs])
    | none =>
      cases hr : scanPool t cur rest with
      | some pr =>
        rw [scanPool, hs, hr]
        constructor
        · intro h; exact absurd h (by simp)
        · intro h
          have : scanPool t cur rest = none := ih.mpr fun x hx => h x (by simp [hx])
          rw [this] at hr; exact absurd hr (by simp)
      | none =>
        rw [scanPool, hs, hr]
        simp only [List.mem_cons, true_iff]
        intro x hx
        rcases hx with rfl | hx
        · exact hs
        · exact ih.mp hr x hx

lemma scanPool_some_spec {t : ℚ} {cur : Polyline} :
    ∀ {pool c p}, scanPool t cur pool = some (c, p) →
      ∃ pre other post, pool = pre ++ other :: post ∧ p = pre ++ post ∧
        spliceStep t cur other = some c := by
  intro pool
  induction pool with
  | nil => intro c p h; rw [scanPool] at h; exact absurd h (by simp)
  | cons o rest ih =>
    intro c p h
    cases hs : spliceStep t cur o with
    | some c2 =>
      rw [scanPool, hs] at h
      injection h with h'
      injection h' with hc hp
      exact ⟨[], o, rest, by simp, by simp [hp.symm], by rw [hs, hc]⟩
    | none =>
      cases hr : scanPool t cur rest with
      | some pr =>
        obtain ⟨c2, p2⟩ := pr
        rw [scanPool, hs, hr] at h
        injection h with h'
        injection h' with hc hp
        obtain ⟨pre, other, post, h1, h2, h3⟩ := ih hr
        exact ⟨o :: pre, other, post, by simp [h1], by simp [← hp, h2], by rw [h3, hc]⟩
      | none =>
        rw [scanPool, hs, hr] at h
        exact absurd h (by simp)

lemma scanPool_some_length {t : ℚ} {cur : Polyline} {pool : List Polyline}
    {c : Polyline} {p : List Polyline} (h : scanPool t cur pool = some (c, p)) :
    p.length + 1 = pool.length := by
  obtain ⟨pre, other, post, h1, h2, h3⟩ := scanPool_some_spec h
  subst h1; subst h2
  simp [List.length_append]
  omega

lemma scanPool_some_mem {t : ℚ} {cur : Polyline} {pool : List Polyline}
    {c : Polyline} {p : List Polyline} (h : scanPool t cur pool = some (c, p)) :
    ∀ x ∈ p, x ∈ pool := by
  obtain ⟨pre, other, post, h1, h2, h3⟩ := scanPool_some_spec h
  subst h1; subst h2
  intro x hx
  simp only [List.mem_append, List.mem_cons] at hx ⊢
  tauto

lemma spliceStep_some_ne_nil {t : ℚ} {cur other c : Polyline} (hcur : cur ≠ [])
    (h : spliceStep t cur other = some c) : c ≠ [] := by
  unfold spliceStep at h
  split_ifs at h <;> injection h with h' <;> subst h'
  · exact fun hc => hcur (List.append_eq_nil.mp hc).1
  · exact fun hc => hcur (List.append_eq_nil.mp hc).2
  · exact fun hc => hcur (List.append_eq_nil.mp hc).2
  · exact fun hc => hcur (List.append_eq_nil.mp hc).1

lemma spliceStep_some_endpoints {t : ℚ} {cur other c : Polyline} (hcur : cur ≠ [])
    (h : spliceStep t cur other = some c) :
    ∀ e ∈ endpoints c, e ∈ endpoints cur ∨ e ∈ endpoints other := by
  have hmem : ∀ (X : Polyline) (e : Pt), e ∈ endpoints X ↔ e = X.headD z ∨ e = X.getLastD z := by
    intro X e; simp [endpoints]
  unfold spliceStep at h
  split_ifs at h <;> injection h with h' <;> subst h' <;> intro e he <;>
    rw [hmem] at he <;> rcases he with rfl | rfl
  -- case 1: current.extend(other[1:])
  · left; rw [headD_append_of_ne_nil _ hcur]; simp [endpoints]
  · by_cases hter : other.tail = []
    · left; rw [hter]; simp [endpoints]
    · right
      rw [getLastD_append_of_ne_nil _ hter, getLastD_tail_of_ne_nil hter]
      simp [endpoints]
  -- case 2: other[:-1] + current
  · by_cases hdl : other.dropLast = []
    · left; rw [hdl]; simp [endpoints]
    · right
      rw [headD_append_of_ne_nil _ hdl, headD_dropLast_of_ne_nil hdl]
      simp [endpoints]
  · left; rw [getLastD_append_of_ne_nil _ hcur]; simp [endpoints]
  -- case 3: reversed(other)[:-1] + current
  · by_cases hdl : other.reverse.dropLast = []
    · left; rw [hdl]; simp [endpoints]
    · right
      rw [headD_append_of_ne_nil _ hdl, headD_dropLast_of_ne_nil hdl, headD_reverse]
      simp [endpoints]
  · left; rw [getLastD_append_of_ne_nil _ hcur]; simp [endpoints]
  -- case 4: current.extend(reversed(other)[1:])
  · left; rw [headD_append_of_ne_nil _ hcur]; simp [endpoints]
  · by_cases hter : other.reverse.tail = []
    · left; rw [hter]; simp [endpoints]
    · right
      rw [getLastD_append_of_ne_nil _ hter, getLastD_tail_of_ne_nil hter, getLastD_reverse]
      simp [endpoints]

/-- Behaviour of the inner merge loop, provided the fuel covers the pool:
the final accumulator is nonempty, its endpoints come from the initial
accumulator or from pool elements, the final pool is a subcollection of the
initial one, and the loop stops only when no pool element attaches. -/
lemma growCurrent_spec (t : ℚ) : ∀ (fuel : ℕ) (cur : Polyline) (pool : List Polyline),
    pool.length ≤ fuel → cur ≠ [] →
    (growCurrent t fuel cur pool).1 ≠ [] ∧
    (∀ e ∈ endpoints (growCurrent t fuel cur pool).1,
        e ∈ endpoints cur ∨ ∃ B ∈ pool, e ∈ endpoints B) ∧
    (∀ x ∈ (growCurrent t fuel cur pool).2, x ∈ pool) ∧
    (growCurrent t fuel cur pool).2.length ≤ pool.length ∧
    scanPool t (growCurrent t fuel cur pool).1 (growCurrent t fuel cur pool).2 = none := by
  intro fuel
  induction fuel with
  | zero =>
    intro cur pool hf hcur
    have hpool : pool = [] := List.length_eq_zero.mp (Nat.le_zero.mp hf)
    subst hpool
    refine ⟨hcur, ?_, ?_, ?_, ?_⟩ <;> simp [growCurrent, scanPool]
  | succ n ih =>
    intro cur pool hf hcur
    cases hs : scanPool t cur pool with
    | none =>
      have heq : growCurrent t (n + 1) cur pool = (cur, pool) := by
        rw [growCurrent, hs]
      rw [heq]
      exact ⟨hcur, fun e he => Or.inl he, fun x hx => hx, le_refl _, hs⟩
    | some pr =>
      obtain ⟨c2, p2⟩ := pr
      have heq : growCurrent t (n + 1) cur pool = growCurrent t n c2 p2 := by
        rw [growCurrent, hs]
      have hlen : p2.length + 1 = pool.length := scanPool_some_length hs
      obtain ⟨pre, other, post, hp1, hp2, hp3⟩ := scanPool_some_spec hs
      have hc2 : c2 ≠ [] := spliceStep_some_ne_nil hcur hp3
      have hother : other ∈ pool := by rw [hp1]; simp
      have hsub : ∀ x ∈ p2, x ∈ pool := scanPool_some_mem hs
      have hep : ∀ e ∈ endpoints c2, e ∈ endpoints cur ∨ e ∈ endpoints other :=
        spliceStep_some_endpoints hcur hp3
      obtain ⟨g1, g2, g3, g4, g5⟩ := ih c2 p2 (by omega) hc2
      rw [heq]
      refine ⟨g1, ?_, ?_, ?_, g5⟩
      · intro e he
        rcases g2 e he with h | ⟨B, hB, hBe⟩
        · rcases hep e h with h' | h'
          · exact Or.inl h'
          · exact Or.inr ⟨other, hother, h'⟩
        · exact Or.inr ⟨B, hsub B hB, hBe⟩
      · intro x hx
        exact hsub x (g3 x hx)
      · calc (growCurrent t n c2 p2).2.length ≤ p2.length := g4
          _ ≤ pool.length := by omega

/-- The outer merge loop preserves pairwise endpoint separation of finished
paths, and separation of each finished path from everything still in the
pool. -/
lemma mergeLoop_sep (t : ℚ) : ∀ (fuel : ℕ) (pool acc : List Polyline),
    pool.length ≤ fuel →
    (∀ B ∈ pool, B ≠ []) →
    (∀ A ∈ acc, A ≠ []) →
    List.Pairwise (SepPls t) acc →
    (∀ A ∈ acc, ∀ B ∈ pool, SepPls t A B) →
    List.Pairwise (SepPls t) (mergeLoop t fuel pool acc).1 ∧
    (∀ A ∈ (mergeLoop t fuel pool acc).1, A ≠ []) := by
  intro fuel
  induction fuel with
  | zero =>
    intro pool acc hf hpool hacc hpw hsep
    rw [mergeLoop]
    exact ⟨hpw, hacc⟩
  | succ n ih =>
    intro pool acc hf hpool hacc hpw hsep
    cases hp : pool with
    | nil =>
      rw [mergeLoop]
      exact ⟨hpw, hacc⟩
    | cons h0 tl =>
      subst hp
      have hpnil : (h0 :: tl : List Polyline) ≠ [] := by simp
      have heq : mergeLoop t (n + 1) (h0 :: tl) acc =
          mergeLoop t n
            (growCurrent t ((h0 :: tl).dropLast).length ((h0 :: tl).getLastD [])
              ((h0 :: tl).dropLast)).2
            (acc ++ [(growCurrent t ((h0 :: tl).dropLast).length ((h0 :: tl).getLastD [])
              ((h0 :: tl).dropLast)).1]) := by
        rw [mergeLoop]
      set cur := (h0 :: tl).getLastD [] with hcurdef
      set rest := (h0 :: tl).dropLast with hrestdef
      have hcurmem : cur ∈ (h0 :: tl) := getLastD_mem _ [] hpnil
      have hcur : cur ≠ [] := hpool cur hcurmem
      have hrestsub : ∀ x ∈ rest, x ∈ (h0 :: tl) := fun x hx => dropLast_subset_mem hx
      obtain ⟨g1, g2, g3, g4, g5⟩ := growCurrent_spec t rest.length cur rest (le_refl _) hcur
      set c := (growCurrent t rest.length cur rest).1
      set p := (growCurrent t rest.length cur rest).2
      have hcsep : ∀ B ∈ p, SepPls t c B := by
        intro B hB
        exact spliceStep_none_iff.mp (scanPool_none_iff.mp g5 B hB)
      have hcend : ∀ e ∈ endpoints c, ∃ B ∈ (h0 :: tl), e ∈ endpoints B := by
        intro e he
        rcases g2 e he with h | ⟨B, hB, hBe⟩
        · exact ⟨cur, hcurmem, h⟩
        · exact ⟨B, hrestsub B hB, hBe⟩
      have haccc : ∀ A ∈ acc, SepPls t A c := by
        intro A hA a ha b hb
        obtain ⟨B, hB, hBb⟩ := hcend b hb
        exact hsep A hA B hB a ha b hBb
      have hlen : p.length ≤ n := by
        have h1 : rest.length = tl.length := by
          rw [hrestdef]; simp [List.length_dropLast]
        have : (h0 :: tl : List Polyline).length ≤ n + 1 := hf
        simp only [List.length_cons] at this
        omega
      rw [heq]
      apply ih p (acc ++ [c]) hlen
      · intro B hB; exact hpool B (hrestsub B (g3 B hB))
      · intro A hA
        rcases List.mem_append.mp hA with h | h
        · exact hacc A h
        · simp at h; subst h; exact g1
      · rw [List.pairwise_append]
        refine ⟨hpw, by simp, ?_⟩
        intro A hA B hB
        simp at hB; subst hB
        exact haccc A hA
      · intro A hA B hB
        rcases List.mem_append.mp hA with h | h
        · exact hsep A h B (hrestsub B (g3 B hB))
        · simp at h; subst h
          exact hcsep B hB

/-- When no scan succeeds immediately, the inner loop is the identity. -/
lemma growCurrent_of_scanPool_none {t : ℚ} {cur : Polyline} {pool : List Polyline}
    (h : scanPool t cur pool = none) (fuel : ℕ) :
    growCurrent t fuel cur pool = (cur, pool) := by
  cases fuel with
  | zero => rw [growCurrent]
  | succ n => rw [growCurrent, h]

/-- On an already pairwise-separated pool the outer loop only pops and
re-appends: the result is the reversed pool. -/
lemma mergeLoop_of_pairwise (t : ℚ) : ∀ (fuel : ℕ) (pool acc : List Polyline),
    pool.length ≤ fuel →
    List.Pairwise (SepPls t) pool →
    mergeLoop t fuel pool acc = (acc ++ pool.reverse, []) := by
  intro fuel
  induction fuel with
  | zero =>
    intro pool acc hf hpw
    have : pool = [] := List.length_eq_zero.mp (Nat.le_zero.mp hf)
    subst this
    rw [mergeLoop]; simp
  | succ n ih =>
    intro pool acc hf hpw
    cases hp : pool with
    | nil => rw [mergeLoop]; simp
    | cons h0 tl =>
      subst hp
      have hpnil : (h0 :: tl : List Polyline) ≠ [] := by simp
      set cur := (h0 :: tl).getLastD [] with hcurdef
      set rest := (h0 :: tl).dropLast with hrestdef
      have hdecomp : rest ++ [cur] = h0 :: tl := dropLast_append_getLastD _ [] hpnil
      have hpw' : List.Pairwise (SepPls t) (rest ++ [cur]) := by rw [hdecomp]; exact hpw
      rw [List.pairwise_append] at hpw'
      obtain ⟨hpwrest, _, hcross⟩ := hpw'
      have hscan : scanPool t cur rest = none := by
        rw [scanPool_none_iff]
        intro other hother
        exact spliceStep_none_iff.mpr (sepPls_symm (hcross other hother cur (by simp)))
      have heq : mergeLoop t (n + 1) (h0 :: tl) acc =
          mergeLoop t n (growCurrent t rest.length cur rest).2
            (acc ++ [(growCurrent t rest.length cur rest).1]) := by
        rw [mergeLoop]
      rw [heq, growCurrent_of_scanPool_none hscan]
      have hlen : rest.length ≤ n := by
        have : (h0 :: tl : List Polyline).length ≤ n + 1 := hf
        simp only [List.length_cons] at this
        have h1 : rest.length = tl.length := by rw [hrestdef]; simp [List.length_dropLast]
        omega
      rw [ih rest (acc ++ [cur]) hlen hpwrest]
      have : (h0 :: tl : List Polyline).reverse = cur :: rest.reverse := by
        rw [← hdecomp]; simp
      rw [this]
      simp

/-- Pairwise endpoint separation of the merge output (shared helper). -/
lemma merge_pairwise_sep (L : List Polyline) (t : ℚ) (h : ∀ B ∈ L, B ≠ []) :
    List.Pairwise (SepPls t) (merge_polylines L t) ∧
    (∀ A ∈ merge_polylines L t, A ≠ []) :=
  mergeLoop_sep t L.length L [] (le_refl _) h (by simp) (by simp) (by simp)

/-- Re-merging a merged set only reverses the list. -/
lemma merge_merge_eq_reverse (L : List Polyline) (t : ℚ) (h : ∀ B ∈ L, B ≠ []) :
    merge_polylines (merge_polylines L t) t = (merge_polylines L t).reverse := by
  have hpw := (merge_pairwise_sep L t h).1
  have hstep : merge_polylines (merge_polylines L t) t
      = (mergeLoop t (merge_polylines L t).length (merge_polylines L t) []).1 := rfl
  rw [hstep, mergeLoop_of_pairwise t _ _ [] (le_refl _) hpw]
  simp

/-! ### The loops leave the pool argument empty (the in-place variants of
`road_LW.py` therefore destroy the caller's list). -/

lemma growCurrent_snd_length (t : ℚ) : ∀ (fuel : ℕ) (cur : Polyline) (pool : List Polyline),
    ((growCurrent t fuel cur pool).2).length ≤ pool.length := by
  intro fuel
  induction fuel with
  | zero => intro cur pool; rw [growCurrent]
  | succ n ih =>
    intro cur pool
    cases hs : scanPool t cur pool with
    | none => rw [growCurrent, hs]
    | some pr =>
      obtain ⟨c2, p2⟩ := pr
      have heq : growCurrent t (n + 1) cur pool = growCurrent t n c2 p2 := by
        rw [growCurrent, hs]
      rw [heq]
      have h1 := scanPool_some_length hs
      calc ((growCurrent t n c2 p2).2).length ≤ p2.length := ih c2 p2
        _ ≤ pool.length := by omega

lemma mergeLoop_snd_eq_nil (t : ℚ) : ∀ (fuel : ℕ) (pool acc : List Polyline),
    pool.length ≤ fuel → (mergeLoop t fuel pool acc).2 = [] := by
  intro fuel
  induction fuel with
  | zero =>
    intro pool acc hf
    have : pool = [] := List.length_eq_zero.mp (Nat.le_zero.mp hf)
    subst this
    rw [mergeLoop]
  | succ n ih =>
    intro pool acc hf
    cases hp : pool with
    | nil => rw [mergeLoop]
    | cons h0 tl =>
      subst hp
      have heq : mergeLoop t (n + 1) (h0 :: tl) acc =
          mergeLoop t n
            (growCurrent t ((h0 :: tl).dropLast).length ((h0 :: tl).getLastD [])
              ((h0 :: tl).dropLast)).2
            (acc ++ [(growCurrent t ((h0 :: tl).dropLast).length ((h0 :: tl).getLastD [])
              ((h0 :: tl).dropLast)).1]) := by
        rw [mergeLoop]
      rw [heq]
      apply ih
      have h1 := growCurrent_snd_length t ((h0 :: tl).dropLast).length
        ((h0 :: tl).getLastD []) ((h0 :: tl).dropLast)
      have h2 : ((h0 :: tl).dropLast).length = tl.length := by simp [List.length_dropLast]
      have h3 : (h0 :: tl : List Polyline).length ≤ n + 1 := hf
      simp only [List.length_cons] at h3
      omega

lemma clusterPass_length (d : ℚ) : ∀ (base : Polyline) (pool : List Polyline),
    ((clusterPass d base pool).2.1).length ≤ pool.length ∧
    ((clusterPass d base pool).2.2 = true → ((clusterPass d base pool).2.1).length < pool.length) := by
  intro base pool
  induction pool generalizing base with
  | nil => simp [clusterPass]
  | cons o rest ih =>
    by_cases h : EndClose d base o
    · have heq : clusterPass d base (o :: rest) =
          ((clusterPass d (base ++ o.filter (fun pt => decide (pt ∉ base))) rest).1,
           (clusterPass d (base ++ o.filter (fun pt => decide (pt ∉ base))) rest).2.1,
           true) := by
        rw [clusterPass, if_pos h]
      rw [heq]
      have := (ih (base ++ o.filter (fun pt => decide (pt ∉ base)))).1
      constructor
      · simpa using Nat.le_succ_of_le this
      · intro _; simpa using Nat.lt_succ_of_le this
    · have heq : clusterPass d base (o :: rest) =
          ((clusterPass d base rest).1,
           o :: (clusterPass d base rest).2.1,
           (clusterPass d base rest).2.2) := by
        rw [clusterPass, if_neg h]
      rw [heq]
      obtain ⟨ih1, ih2⟩ := ih base
      constructor
      · simpa using ih1
      · intro hb; simpa using ih2 hb

lemma clusterGrow_snd_length (d : ℚ) : ∀ (fuel : ℕ) (base : Polyline) (pool : List Polyline),
    ((clusterGrow d fuel base pool).2).length ≤ pool.length := by
  intro fuel
  induction fuel with
  | zero => intro base pool; rw [clusterGrow]
  | succ n ih =>
    intro base pool
    rw [clusterGrow]
    by_cases hb : (clusterPass d base pool).2.2 = true
    · rw [if_pos hb]
      calc ((clusterGrow d n (clusterPass d base pool).1 (clusterPass d base pool).2.1).2).length
          ≤ ((clusterPass d base pool).2.1).length := ih _ _
        _ ≤ pool.length := (clusterPass_length d base pool).1
    · rw [if_neg hb]
      exact (clusterPass_length d base pool).1

lemma clusterLoop_snd_eq_nil (d : ℚ) : ∀ (fuel : ℕ) (pool acc : List Polyline),
    pool.length ≤ fuel → (clusterLoop d fuel pool acc).2 = [] := by
  intro fuel
  induction fuel with
  | zero =>
    intro pool acc hf
    have : pool = [] := List.length_eq_zero.mp (Nat.le_zero.mp hf)
    subst this
    rw [clusterLoop]
  | succ n ih =>
    intro pool acc hf
    cases hp : pool with
    | nil => rw [clusterLoop]
    | cons h0 tl =>
      subst hp
      have heq : clusterLoop d (n + 1) (h0 :: tl) acc =
          clusterLoop d n
            (clusterGrow d (((h0 :: tl).dropLast).length + 1) ((h0 :: tl).getLastD [])
              ((h0 :: tl).dropLast)).2
            (acc ++ [(clusterGrow d (((h0 :: tl).dropLast).length + 1) ((h0 :: tl).getLastD [])
              ((h0 :: tl).dropLast)).1]) := by
        rw [clusterLoop]
      rw [heq]
      apply ih
      have h1 := clusterGrow_snd_length d (((h0 :: tl).dropLast).length + 1)
        ((h0 :: tl).getLastD []) ((h0 :: tl).dropLast)
      have h2 : ((h0 :: tl).dropLast).length = tl.length := by simp [List.length_dropLast]
      have h3 : (h0 :: tl : List Polyline).length ≤ n + 1 := hf
      simp only [List.length_cons] at h3
      omega

lemma allPts_nil : allPts [] = 0 := rfl

lemma allPts_cons (pl : Polyline) (L : List Polyline) :
    allPts (pl :: L) = ↑pl + allPts L := by
  simp [allPts]

lemma allPts_append (L M : List Polyline) :
    allPts (L ++ M) = allPts L + allPts M := by
  simp [allPts]

lemma coe_headD_add_tail {α : Type _} {l : List α} (h : l ≠ []) (d : α) :
    ({l.headD d} : Multiset α) + ↑l.tail = ↑l := by
  cases l with
  | nil => exact absurd rfl h
  | cons a u => simp [Multiset.singleton_add]

lemma coe_dropLast_add_getLastD {α : Type _} {l : List α} (h : l ≠ []) (d : α) :
    (↑l.dropLast : Multiset α) + {l.getLastD d} = ↑l := by
  conv_rhs => rw [← dropLast_append_getLastD l d h]
  rw [← Multiset.coe_add]
  rfl

lemma spliceStep_multiset {t : ℚ} {cur other c : Polyline} (hoth : other ≠ [])
    (h : spliceStep t cur other = some c) :
    ∃ x : Pt, (↑c : Multiset Pt) + {x} = ↑cur + ↑other := by
  have hrev : other.reverse ≠ [] := by simpa using hoth
  unfold spliceStep at h
  split_ifs at h <;> injection h with h' <;> subst h'
  · refine ⟨other.headD z, ?_⟩
    rw [← Multiset.coe_add, add_assoc,
      add_comm (↑other.tail : Multiset Pt) ({other.headD z} : Multiset Pt),
      coe_headD_add_tail hoth z]
  · refine ⟨other.getLastD z, ?_⟩
    rw [← Multiset.coe_add, add_comm (↑other.dropLast : Multiset Pt) (↑cur : Multiset Pt),
      add_assoc, coe_dropLast_add_getLastD hoth z]
  · refine ⟨other.headD z, ?_⟩
    rw [← Multiset.coe_add,
      add_comm (↑other.reverse.dropLast : Multiset Pt) (↑cur : Multiset Pt), add_assoc,
      ← getLastD_reverse other z, coe_dropLast_add_getLastD hrev z, Multiset.coe_reverse]
  · refine ⟨other.getLastD z, ?_⟩
    rw [← Multiset.coe_add, add_assoc,
      add_comm (↑other.reverse.tail : Multiset Pt) ({other.getLastD z} : Multiset Pt),
      ← headD_reverse other z, coe_headD_add_tail hrev z, Multiset.coe_reverse]

lemma growCurrent_snd_mem (t : ℚ) : ∀ (fuel : ℕ) (cur : Polyline) (pool : List Polyline),
    ∀ x ∈ (growCurrent t fuel cur pool).2, x ∈ pool := by
  intro fuel
  induction fuel with
  | zero => intro cur pool; rw [growCurrent]; exact fun x hx => hx
  | succ n ih =>
    intro cur pool
    cases hs : scanPool t cur pool with
    | none => rw [growCurrent, hs]; exact fun x hx => hx
    | some pr =>
      obtain ⟨c2, p2⟩ := pr
      have heq : growCurrent t (n + 1) cur pool = growCurrent t n c2 p2 := by
        rw [growCurrent, hs]
      rw [heq]
      exact fun x hx => scanPool_some_mem hs x (ih c2 p2 x hx)

/-- The inner merge loop drops exactly one point per absorbed pool element. -/
lemma growCurrent_multiset (t : ℚ) : ∀ (fuel : ℕ) (cur : Polyline) (pool : List Polyline),
    (∀ B ∈ pool, B ≠ []) →
    ∃ D : Multiset Pt,
      (↑(growCurrent t fuel cur pool).1 : Multiset Pt)
          + allPts (growCurrent t fuel cur pool).2 + D = ↑cur + allPts pool ∧
      Multiset.card D + ((growCurrent t fuel cur pool).2).length = pool.length := by
  intro fuel
  induction fuel with
  | zero =>
    intro cur pool hpool
    rw [growCurrent]
    exact ⟨0, by simp, by simp⟩
  | succ n ih =>
    intro cur pool hpool
    cases hs : scanPool t cur pool with
    | none =>
      rw [growCurrent, hs]
      exact ⟨0, by simp, by simp⟩
    | some pr =>
      obtain ⟨c2, p2⟩ := pr
      have heq : growCurrent t (n + 1) cur pool = growCurrent t n c2 p2 := by
        rw [growCurrent, hs]
      obtain ⟨pre, other, post, hp1, hp2, hp3⟩ := scanPool_some_spec hs
      have hother : other ∈ pool := by rw [hp1]; simp
      have hoth : other ≠ [] := hpool other hother
      obtain ⟨x, hx⟩ := spliceStep_multiset hoth hp3
      have hpoolPts : allPts pool = allPts p2 + ↑other := by
        rw [hp1, hp2, allPts_append, allPts_append, allPts_cons]
        rw [add_comm (↑other : Multiset Pt) (allPts post)]
        rw [← add_assoc, add_assoc]
      have hp2mem : ∀ B ∈ p2, B ≠ [] := fun B hB => hpool B (scanPool_some_mem hs B hB)
      obtain ⟨D1, hD1, hD1c⟩ := ih c2 p2 hp2mem
      refine ⟨D1 + {x}, ?_, ?_⟩
      · rw [heq]
        calc (↑(growCurrent t n c2 p2).1 : Multiset Pt)
              + allPts (growCurrent t n c2 p2).2 + (D1 + {x})
            = ((↑(growCurrent t n c2 p2).1 : Multiset Pt)
              + allPts (growCurrent t n c2 p2).2 + D1) + {x} := by abel
          _ = (↑c2 + allPts p2) + {x} := by rw [hD1]
          _ = (↑c2 + {x}) + allPts p2 := by abel
          _ = (↑cur + ↑other) + allPts p2 := by rw [hx]
          _ = ↑cur + (allPts p2 + ↑other) := by abel
          _ = ↑cur + allPts pool := by rw [hpoolPts]
      · rw [heq]
        have hlen := scanPool_some_length hs
        simp only [Multiset.card_add, Multiset.card_singleton]
        omega

/-- The outer merge loop: the result's points are the input's points minus
exactly one dropped point per merge event. -/
lemma mergeLoop_multiset (t : ℚ) : ∀ (fuel : ℕ) (pool acc : List Polyline),
    pool.length ≤ fuel → (∀ B ∈ pool, B ≠ []) →
    ∃ D : Multiset Pt,
      allPts (mergeLoop t fuel pool acc).1 + D = allPts acc + allPts pool ∧
      Multiset.card D + ((mergeLoop t fuel pool acc).1).length = acc.length + pool.length := by
  intro fuel
  induction fuel with
  | zero =>
    intro pool acc hf hpool
    have : pool = [] := List.length_eq_zero.mp (Nat.le_zero.mp hf)
    subst this
    rw [mergeLoop]
    exact ⟨0, by simp [allPts_nil], by simp⟩
  | succ n ih =>
    intro pool acc hf hpool
    cases hp : pool with
    | nil =>
      rw [mergeLoop]
      exact ⟨0, by simp [allPts_nil], by simp⟩
    | cons h0 tl =>
      subst hp
      have hpnil : (h0 :: tl : List Polyline) ≠ [] := by simp
      set cur := (h0 :: tl).getLastD [] with hcurdef
      set rest := (h0 :: tl).dropLast with hrestdef
      have heq : mergeLoop t (n + 1) (h0 :: tl) acc =
          mergeLoop t n (growCurrent t rest.length cur rest).2
            (acc ++ [(growCurrent t rest.length cur rest).1]) := by
        rw [mergeLoop]
      have hdecomp : rest ++ [cur] = h0 :: tl := dropLast_append_getLastD _ [] hpnil
      have hrestmem : ∀ B ∈ rest, B ≠ [] := fun B hB => hpool B (dropLast_subset_mem hB)
      obtain ⟨D1, hD1, hD1c⟩ := growCurrent_multiset t rest.length cur rest hrestmem
      set c := (growCurrent t rest.length cur rest).1
      set p := (growCurrent t rest.length cur rest).2
      have hpmem : ∀ B ∈ p, B ≠ [] := fun B hB => hrestmem B (growCurrent_snd_mem t _ _ _ B hB)
      have hplen : p.length ≤ n := by
        have h1 := growCurrent_snd_length t rest.length cur rest
        have h2 : rest.length = tl.length := by rw [hrestdef]; simp [List.length_dropLast]
        have h3 : (h0 :: tl : List Polyline).length ≤ n + 1 := hf
        simp only [List.length_cons] at h3
        omega
      obtain ⟨D2, hD2, hD2c⟩ := ih p (acc ++ [c]) hplen hpmem
      have hPool : allPts (h0 :: tl) = allPts rest + ↑cur := by
        rw [← hdecomp, allPts_append, allPts_cons, allPts_nil, add_zero]
      refine ⟨D1 + D2, ?_, ?_⟩
      · rw [heq]
        calc allPts (mergeLoop t n p (acc ++ [c])).1 + (D1 + D2)
            = (allPts (mergeLoop t n p (acc ++ [c])).1 + D2) + D1 := by abel
          _ = (allPts (acc ++ [c]) + allPts p) + D1 := by rw [hD2]
          _ = (allPts acc + ↑c + allPts p) + D1 := by
              rw [allPts_append, allPts_cons, allPts_nil, add_zero]
          _ = allPts acc + (↑c + allPts p + D1) := by abel
          _ = allPts acc + (↑cur + allPts rest) := by rw [hD1]
          _ = allPts acc + (allPts rest + ↑cur) := by abel
          _ = allPts acc + allPts (h0 :: tl) := by rw [hPool]
      · rw [heq]
        have h2 : rest.length = tl.length := by rw [hrestdef]; simp [List.length_dropLast]
        simp only [Multiset.card_add] at hD2c ⊢
        simp only [List.length_append, List.length_singleton] at hD2c
        simp only [List.length_cons]
        omega

/-! ### Corridor clustering: the first point of a growing cluster base never
changes, so first points of distinct corridors stay separated.  (The last
point can become an interior point of an absorbed path through the
exact-equality deduplication, which is why the full endpoint claim fails,
see the counterexample for C3.) -/

lemma clusterPass_head (d : ℚ) : ∀ (base : Polyline) (pool : List Polyline), base ≠ [] →
    (clusterPass d base pool).1 ≠ [] ∧
    ((clusterPass d base pool).1).headD z = base.headD z := by
  intro base pool
  induction pool generalizing base with
  | nil => intro h; rw [clusterPass]; exact ⟨h, rfl⟩
  | cons o rest ih =>
    intro h
    by_cases hc : EndClose d base o
    · have heq : clusterPass d base (o :: rest) =
          ((clusterPass d (base ++ o.filter (fun pt => decide (pt ∉ base))) rest).1,
           (clusterPass d (base ++ o.filter (fun pt => decide (pt ∉ base))) rest).2.1,
           true) := by
        rw [clusterPass, if_pos hc]
      rw [heq]
      have hne : base ++ o.filter (fun pt => decide (pt ∉ base)) ≠ [] :=
        fun hx => h (List.append_eq_nil.mp hx).1
      obtain ⟨ih1, ih2⟩ := ih _ hne
      exact ⟨ih1, ih2.trans (headD_append_of_ne_nil _ h z)⟩
    · have heq : clusterPass d base (o :: rest) =
          ((clusterPass d base rest).1,
           o :: (clusterPass d base rest).2.1,
           (clusterPass d base rest).2.2) := by
        rw [clusterPass, if_neg hc]
      rw [heq]
      exact ih base h

lemma clusterPass_kept_mem (d : ℚ) : ∀ (base : Polyline) (pool : List Polyline),
    ∀ x ∈ (clusterPass d base pool).2.1, x ∈ pool := by
  intro base pool
  induction pool generalizing base with
  | nil => rw [clusterPass]; simp
  | cons o rest ih =>
    by_cases hc : EndClose d base o
    · have heq : clusterPass d base (o :: rest) =
          ((clusterPass d (base ++ o.filter (fun pt => decide (pt ∉ base))) rest).1,
           (clusterPass d (base ++ o.filter (fun pt => decide (pt ∉ base))) rest).2.1,
           true) := by
        rw [clusterPass, if_pos hc]
      rw [heq]
      exact fun x hx => List.mem_cons_of_mem o (ih _ x hx)
    · have heq : clusterPass d base (o :: rest) =
          ((clusterPass d base rest).1,
           o :: (clusterPass d base rest).2.1,
           (clusterPass d base rest).2.2) := by
        rw [clusterPass, if_neg hc]
      rw [heq]
      intro x hx
      rcases List.mem_cons.mp hx with rfl | hx
      · exact List.mem_cons_self _ _
      · exact List.mem_cons_of_mem o (ih base x hx)

/-- A pass that reports no change did nothing and certifies that no pool
element is endpoint-close to the base. -/
lemma clusterPass_unchanged (d : ℚ) : ∀ (base : Polyline) (pool : List Polyline),
    (clusterPass d base pool).2.2 = false →
    (clusterPass d base pool).1 = base ∧
    (clusterPass d base pool).2.1 = pool ∧
    ∀ other ∈ pool, ¬ EndClose d base other := by
  intro base pool
  induction pool generalizing base with
  | nil => intro _; rw [clusterPass]; exact ⟨rfl, rfl, by simp⟩
  | cons o rest ih =>
    intro hfl
    by_cases hc : EndClose d base o
    · exfalso
      have heq : (clusterPass d base (o :: rest)).2.2 = true := by
        rw [clusterPass, if_pos hc]
      rw [heq] at hfl
      exact absurd hfl (by simp)
    · have heq : clusterPass d base (o :: rest) =
          ((clusterPass d base rest).1,
           o :: (clusterPass d base rest).2.1,
           (clusterPass d base rest).2.2) := by
        rw [clusterPass, if_neg hc]
      rw [heq] at hfl ⊢
      obtain ⟨ih1, ih2, ih3⟩ := ih base hfl
      refine ⟨ih1, by rw [ih2], ?_⟩
      intro other hother
      rcases List.mem_cons.mp hother with rfl | hother
      · exact hc
      · exact ih3 other hother

/-- The inner cluster loop, with enough fuel: preserves the base's first
point, shrinks the pool, and stops only when no pool element is
endpoint-close to the final base. -/
lemma clusterGrow_spec (d : ℚ) : ∀ (fuel : ℕ) (base : Polyline) (pool : List Polyline),
    pool.length < fuel → base ≠ [] →
    (clusterGrow d fuel base pool).1 ≠ [] ∧
    ((clusterGrow d fuel base pool).1).headD z = base.headD z ∧
    (∀ x ∈ (clusterGrow d fuel base pool).2, x ∈ pool) ∧
    (∀ other ∈ (clusterGrow d fuel base pool).2,
      ¬ EndClose d (clusterGrow d fuel base pool).1 other) := by
  intro fuel
  induction fuel with
  | zero => intro base pool hf; omega
  | succ n ih =>
    intro base pool hf hbase
    rw [clusterGrow]
    by_cases hfl : (clusterPass d base pool).2.2 = true
    · rw [if_pos hfl]
      have hlen : (clusterPass d base pool).2.1.length < n := by
        have h1 := (clusterPass_length d base pool).2 hfl
        omega
      have hb := clusterPass_head d base pool hbase
      obtain ⟨g1, g2, g3, g4⟩ := ih (clusterPass d base pool).1 (clusterPass d base pool).2.1
        hlen hb.1
      refine ⟨g1, g2.trans hb.2, ?_, g4⟩
      intro x hx
      exact clusterPass_kept_mem d base pool x (g3 x hx)
    · rw [if_neg hfl]
      have hfl' : (clusterPass d base pool).2.2 = false := by
        cases hb : (clusterPass d base pool).2.2
        · rfl
        · exact absurd hb hfl
      obtain ⟨h1, h2, h3⟩ := clusterPass_unchanged d base pool hfl'
      refine ⟨by rw [h1]; exact hbase, by rw [h1], ?_, ?_⟩
      · intro x hx; rw [h2] at hx; exact hx
      · intro other hother
        rw [h2] at hother
        rw [h1]
        exact h3 other hother

/-- First points of distinct corridors are pairwise separated by the cluster
distance (shared helper for C3). -/
lemma clusterLoop_head_sep (d : ℚ) : ∀ (fuel : ℕ) (pool acc : List Polyline),
    pool.length ≤ fuel →
    (∀ B ∈ pool, B ≠ []) →
    (∀ A ∈ acc, A ≠ []) →
    List.Pairwise (fun A B => ¬ distLt (A.headD z) (B.headD z) d) acc →
    (∀ A ∈ acc, ∀ B ∈ pool, ¬ distLt (A.headD z) (B.headD z) d) →
    List.Pairwise (fun A B => ¬ distLt (A.headD z) (B.headD z) d)
      (clusterLoop d fuel pool acc).1 ∧
    (∀ A ∈ (clusterLoop d fuel pool acc).1, A ≠ []) := by
  intro fuel
  induction fuel with
  | zero =>
    intro pool acc hf hpool hacc hpw hsep
    rw [clusterLoop]
    exact ⟨hpw, hacc⟩
  | succ n ih =>
    intro pool acc hf hpool hacc hpw hsep
    cases hp : pool with
    | nil =>
      rw [clusterLoop]
      exact ⟨hpw, hacc⟩
    | cons h0 tl =>
      subst hp
      have hpnil : (h0 :: tl : List Polyline) ≠ [] := by simp
      set base := (h0 :: tl).getLastD [] with hbasedef
      set rest := (h0 :: tl).dropLast with hrestdef
      have heq : clusterLoop d (n + 1) (h0 :: tl) acc =
          clusterLoop d n (clusterGrow d (rest.length + 1) base rest).2
            (acc ++ [(clusterGrow d (rest.length + 1) base rest).1]) := by
        rw [clusterLoop]
      have hbasemem : base ∈ (h0 :: tl) := getLastD_mem _ [] hpnil
      have hbase : base ≠ [] := hpool base hbasemem
      have hrestsub : ∀ x ∈ rest, x ∈ (h0 :: tl) := fun x hx => dropLast_subset_mem hx
      obtain ⟨g1, g2, g3, g4⟩ := clusterGrow_spec d (rest.length + 1) base rest
        (by omega) hbase
      set b := (clusterGrow d (rest.length + 1) base rest).1
      set kept := (clusterGrow d (rest.length + 1) base rest).2
      have hbheadsep : ∀ other ∈ kept, ¬ distLt (b.headD z) (other.headD z) d := by
        intro other hother hlt
        exact g4 other hother ⟨b.headD z, by simp [endpoints], other.headD z,
          by simp [endpoints], hlt⟩
      have hlen : kept.length ≤ n := by
        have h1 : kept.length ≤ rest.length :=
          clusterGrow_snd_length d (rest.length + 1) base rest
        have h2 : rest.length = tl.length := by rw [hrestdef]; simp [List.length_dropLast]
        have h3 : (h0 :: tl : List Polyline).length ≤ n + 1 := hf
        simp only [List.length_cons] at h3
        omega
      rw [heq]
      apply ih kept (acc ++ [b]) hlen
      · intro B hB; exact hpool B (hrestsub B (g3 B hB))
      · intro A hA
        rcases List.mem_append.mp hA with h | h
        · exact hacc A h
        · simp at h; subst h; exact g1
      · rw [List.pairwise_append]
        refine ⟨hpw, by simp, ?_⟩
        intro A hA B hB
        simp at hB; subst hB
        rw [g2]
        exact hsep A hA base hbasemem
      · intro A hA B hB
        rcases List.mem_append.mp hA with h | h
        · exact hsep A h B (hrestsub B (g3 B hB))
        · simp at h; subst h
          exact hbheadsep B hB

lemma cluster_head_pairwise (L : List Polyline) (d : ℚ) (h : ∀ r ∈ L, r ≠ []) :
    List.Pairwise (fun A B => ¬ distLt (A.headD z) (B.headD z) d) (cluster_roads L d) :=
  (clusterLoop_head_sep d L.length L [] (le_refl _) h (by simp) (by simp) (by simp)).1

lemma endpoints_singleton (p : Pt) : endpoints [p] = [p, p] := by
  simp [endpoints, List.getLastD]

lemma spliceStep_singleton_self (t : ℚ) (p : Pt) :
    spliceStep t [p] [p] = some [p] ∨ spliceStep t [p] [p] = none := by
  unfold spliceStep
  by_cases h : distLt (([p] : Polyline).getLastD z) (([p] : Polyline).headD z) t
  · left; rw [if_pos h]; rfl
  · right
    have h2 : ¬ distLt (([p] : Polyline).headD z) (([p] : Polyline).getLastD z) t := by
      simpa [List.getLastD] using h
    have h3 : ¬ distLt (([p] : Polyline).headD z) (([p] : Polyline).headD z) t := by
      simpa [List.getLastD] using h
    have h4 : ¬ distLt (([p] : Polyline).getLastD z) (([p] : Polyline).getLastD z) t := by
      simpa [List.getLastD] using h
    rw [if_neg h, if_neg h2, if_neg h3, if_neg h4]

lemma spliceStep_singleton_far {t : ℚ} {p : Pt} {other : Polyline} (h : FarP t p other) :
    spliceStep t [p] other = none := by
  have hh : ¬ distLt p (other.headD z) t := h _ (by simp [endpoints])
  have hl : ¬ distLt p (other.getLastD z) t := h _ (by simp [endpoints])
  unfold spliceStep
  have e1 : (([p] : Polyline)).getLastD z = p := by simp [List.getLastD]
  have e2 : (([p] : Polyline)).headD z = p := by simp
  rw [e1, e2, if_neg hh, if_neg hl, if_neg hh, if_neg hl]

lemma spliceStep_far_singleton {t : ℚ} {p : Pt} {cur : Polyline}
    (h : ∀ e ∈ endpoints cur, ¬ distLt p e t) :
    spliceStep t cur [p] = none := by
  have hh : ¬ distLt (cur.headD z) p t :=
    fun hlt => h _ (by simp [endpoints]) (distLt_symm hlt)
  have hl : ¬ distLt (cur.getLastD z) p t :=
    fun hlt => h _ (by simp [endpoints]) (distLt_symm hlt)
  unfold spliceStep
  have e1 : (([p] : Polyline)).getLastD z = p := by simp [List.getLastD]
  have e2 : (([p] : Polyline)).headD z = p := by simp
  rw [e1, e2, if_neg hl, if_neg hh, if_neg hh, if_neg hl]

/-- A single-point accumulator surrounded only by far fragments or copies of
itself stays a single point. -/
lemma growCurrent_singleton (t : ℚ) (p : Pt) : ∀ (fuel : ℕ) (pool : List Polyline),
    (∀ B ∈ pool, B = [p] ∨ FarP t p B) →
    (growCurrent t fuel [p] pool).1 = [p] ∧
    (∀ x ∈ (growCurrent t fuel [p] pool).2, x ∈ pool) := by
  intro fuel
  induction fuel with
  | zero => intro pool hpool; rw [growCurrent]; exact ⟨rfl, fun x hx => hx⟩
  | succ n ih =>
    intro pool hpool
    cases hs : scanPool t [p] pool with
    | none =>
      rw [growCurrent, hs]
      exact ⟨rfl, fun x hx => hx⟩
    | some pr =>
      obtain ⟨c2, p2⟩ := pr
      have heq : growCurrent t (n + 1) [p] pool = growCurrent t n c2 p2 := by
        rw [growCurrent, hs]
      obtain ⟨pre, other, post, hp1, hp2, hp3⟩ := scanPool_some_spec hs
      have hother : other ∈ pool := by rw [hp1]; simp
      have hoeq : other = [p] := by
        rcases hpool other hother with h | h
        · exact h
        · exact absurd hp3 (by rw [spliceStep_singleton_far h]; simp)
      subst hoeq
      have hc2 : c2 = [p] := by
        rcases spliceStep_singleton_self t p with h | h
        · rw [h] at hp3; injection hp3 with h'; exact h'.symm
        · rw [h] at hp3; exact absurd hp3 (by simp)
      subst hc2
      have hmem : ∀ x ∈ p2, x ∈ pool := fun x hx => scanPool_some_mem hs x hx
      obtain ⟨ih1, ih2⟩ := ih p2 (fun B hB => hpool B (hmem B hB))
      rw [heq]
      exact ⟨ih1, fun x hx => hmem x (ih2 x hx)⟩

/-- An accumulator whose endpoints are far from `p` never absorbs `[p]` and
keeps endpoints far from `p`. -/
lemma growCurrent_far (t : ℚ) (p : Pt) : ∀ (fuel : ℕ) (cur : Polyline) (pool : List Polyline),
    cur ≠ [] →
    (∀ e ∈ endpoints cur, ¬ distLt p e t) →
    (∀ B ∈ pool, B = [p] ∨ FarP t p B) →
    (∀ x ∈ (growCurrent t fuel cur pool).2, x ∈ pool) ∧
    ([p] ∈ pool → [p] ∈ (growCurrent t fuel cur pool).2) := by
  intro fuel
  induction fuel with
  | zero =>
    intro cur pool hcur hfar hpool
    rw [growCurrent]
    exact ⟨fun x hx => hx, fun h => h⟩
  | succ n ih =>
    intro cur pool hcur hfar hpool
    cases hs : scanPool t cur pool with
    | none =>
      rw [growCurrent, hs]
      exact ⟨fun x hx => hx, fun h => h⟩
    | some pr =>
      obtain ⟨c2, p2⟩ := pr
      have heq : growCurrent t (n + 1) cur pool = growCurrent t n c2 p2 := by
        rw [growCurrent, hs]
      obtain ⟨pre, other, post, hp1, hp2, hp3⟩ := scanPool_some_spec hs
      have hother : other ∈ pool := by rw [hp1]; simp
      have hofar : FarP t p other := by
        rcases hpool other hother with h | h
        · subst h
          exact absurd hp3 (by rw [spliceStep_far_singleton hfar]; simp)
        · exact h
      have hone : other ≠ [p] := by
        intro hq
        subst hq
        exact absurd hp3 (by rw [spliceStep_far_singleton hfar]; simp)
      have hc2 : c2 ≠ [] := spliceStep_some_ne_nil hcur hp3
      have hc2far : ∀ e ∈ endpoints c2, ¬ distLt p e t := by
        intro e he
        rcases spliceStep_some_endpoints hcur hp3 e he with h | h
        · exact hfar e h
        · exact hofar e h
      have hmem : ∀ x ∈ p2, x ∈ pool := fun x hx => scanPool_some_mem hs x hx
      have hp2pool : ∀ B ∈ p2, B = [p] ∨ FarP t p B := fun B hB => hpool B (hmem B hB)
      obtain ⟨ih1, ih2⟩ := ih c2 p2 hc2 hc2far hp2pool
      rw [heq]
      refine ⟨fun x hx => hmem x (ih1 x hx), ?_⟩
      intro hppool
      apply ih2
      rw [hp1] at hppool
      rw [hp2]
      rcases List.mem_append.mp hppool with h | h
      · exact List.mem_append.mpr (Or.inl h)
      · rcases List.mem_cons.mp h with h' | h'
        · exact absurd h'.symm hone
        · exact List.mem_append.mpr (Or.inr h')

/-- A single-point polyline far from all other fragments' endpoints survives
the whole merge as its own output path. -/
lemma mergeLoop_singleton (t : ℚ) (p : Pt) : ∀ (fuel : ℕ) (pool acc : List Polyline),
    pool.length ≤ fuel →
    (∀ B ∈ pool, B ≠ []) →
    (∀ B ∈ pool, B = [p] ∨ FarP t p B) →
    ([p] ∈ pool ∨ [p] ∈ acc) →
    [p] ∈ (mergeLoop t fuel pool acc).1 := by
  intro fuel
  induction fuel with
  | zero =>
    intro pool acc hf hne hpool hmem
    have : pool = [] := List.length_eq_zero.mp (Nat.le_zero.mp hf)
    subst this
    rw [mergeLoop]
    rcases hmem with h | h
    · exact absurd h (by simp)
    · exact h
  | succ n ih =>
    intro pool acc hf hne hpool hmem
    cases hp : pool with
    | nil =>
      rw [mergeLoop]
      rcases hmem with h | h
      · exact absurd (hp ▸ h) (by simp)
      · exact h
    | cons h0 tl =>
      subst hp
      have hpnil : (h0 :: tl : List Polyline) ≠ [] := by simp
      set cur := (h0 :: tl).getLastD [] with hcurdef
      set rest := (h0 :: tl).dropLast with hrestdef
      have heq : mergeLoop t (n + 1) (h0 :: tl) acc =
          mergeLoop t n (growCurrent t rest.length cur rest).2
            (acc ++ [(growCurrent t rest.length cur rest).1]) := by
        rw [mergeLoop]
      have hdecomp : rest ++ [cur] = h0 :: tl := dropLast_append_getLastD _ [] hpnil
      have hcurmem : cur ∈ (h0 :: tl) := getLastD_mem _ [] hpnil
      have hrestsub : ∀ x ∈ rest, x ∈ (h0 :: tl) := fun x hx => dropLast_subset_mem hx
      have hrestpool : ∀ B ∈ rest, B = [p] ∨ FarP t p B :=
        fun B hB => hpool B (hrestsub B hB)
      have hlen : ∀ q : List Polyline, (∀ x ∈ q, x ∈ rest) →
          (∀ x ∈ q, x ∈ rest) := fun q h => h
      have hrlen : rest.length ≤ n := by
        have h2 : rest.length = tl.length := by rw [hrestdef]; simp [List.length_dropLast]
        have h3 : (h0 :: tl : List Polyline).length ≤ n + 1 := hf
        simp only [List.length_cons] at h3
        omega
      rw [heq]
      by_cases hcur : cur = [p]
      · obtain ⟨g1, g2⟩ := growCurrent_singleton t p rest.length rest hrestpool
        rw [hcur]
        apply ih _ _ (le_trans (growCurrent_snd_length t rest.length [p] rest) hrlen)
        · intro B hB; exact hne B (hrestsub B (g2 B hB))
        · intro B hB; exact hrestpool B (g2 B hB)
        · right
          rw [g1]
          simp
      · have hcurfar : ∀ e ∈ endpoints cur, ¬ distLt p e t := by
          rcases hpool cur hcurmem with h | h
          · exact absurd h hcur
          · exact h
        obtain ⟨g1, g2⟩ := growCurrent_far t p rest.length cur rest
          (hne cur hcurmem) hcurfar hrestpool
        apply ih _ _ (le_trans (growCurrent_snd_length t rest.length cur rest) hrlen)
        · intro B hB; exact hne B (hrestsub B (g1 B hB))
        · intro B hB; exact hrestpool B (g1 B hB)
        · rcases hmem with h | h
          · left
            apply g2
            rw [← hdecomp] at h
            rcases List.mem_append.mp h with h' | h'
            · exact h'
            · rcases List.mem_cons.mp h' with h'' | h''
              · exact absurd h''.symm hcur
              · exact absurd h'' (by simp)
          · right
            exact List.mem_append.mpr (Or.inl h)

/-! ### Extraction skips degenerate entities silently and keeps going. -/

lemma polyline_length_short {pts : Polyline} (h : pts.length < 2) :
    polyline_length pts = 0 := by
  cases pts with
  | nil => rfl
  | cons a t =>
    cases t with
    | nil => rfl
    | cons b u => simp at h; omega

/-- Removing a degenerate entity (fewer than 2 vertices) from anywhere in
the batch does not change the extraction result: such an entity is skipped
silently and processing continues. -/
lemma extract_skip_degenerate (rl : List String) (e : LWEntity)
    (hdeg : e.verts.length < 2) :
    ∀ (xs ys : List LWEntity),
      extract_polylines (xs ++ e :: ys) rl = extract_polylines (xs ++ ys) rl := by
  have hlen : polyline_length (e.verts.map (fun v => (v.x, v.y))) = 0 :=
    polyline_length_short (by simpa using hdeg)
  have hskip : ∀ ys, extract_polylines (e :: ys) rl = extract_polylines ys rl := by
    intro ys
    rw [extract_polylines]
    by_cases hl : e.layer ∈ rl
    · rw [if_pos hl, if_neg]
      rw [hlen]
      norm_num
    · rw [if_neg hl]
  intro xs
  induction xs with
  | nil => intro ys; simpa using hskip ys
  | cons x xs ih =>
    intro ys
    rw [List.cons_append, List.cons_append, extract_polylines, extract_polylines, ih ys]

/-! ### Width estimation degrades to `(None, 0)` when no candidate
qualifies. -/

lemma fpeLoop_none (target : Polyline) (mainAngle : ℝ) (tol : ℚ) :
    ∀ roads : List Polyline,
      (∀ other ∈ roads, other ≠ target →
        (tol : ℝ) < angle_difference mainAngle (bearing (other.headD z) (other.getLastD z)) ∨
        average_polyline_distance target other 10 = 0) →
      fpeLoop target mainAngle tol roads none none = (none, none) := by
  intro roads
  induction roads with
  | nil => intro _; rw [fpeLoop]
  | cons other rest ih =>
    intro h
    rw [fpeLoop]
    by_cases hid : other = target
    · rw [if_pos hid]
      exact ih fun x hx => h x (List.mem_cons_of_mem _ hx)
    · rw [if_neg hid]
      rcases h other (List.mem_cons_self _ _) hid with hang | havg
      · rw [if_neg (not_le.mpr hang)]
        exact ih fun x hx => h x (List.mem_cons_of_mem _ hx)
      · by_cases hang : angle_difference mainAngle
            (bearing (other.headD z) (other.getLastD z)) ≤ (tol : ℝ)
        · rw [if_pos hang, if_neg]
          · exact ih fun x hx => h x (List.mem_cons_of_mem _ hx)
          · rw [havg]
            simp
        · rw [if_neg hang]
          exact ih fun x hx => h x (List.mem_cons_of_mem _ hx)

/-- When no other road qualifies, `find_parallel_edge` reports `(None, 0)`. -/
lemma find_parallel_edge_unresolved (target : Polyline) (all_roads : List Polyline)
    (tol : ℚ)
    (h : ∀ other ∈ all_roads, other ≠ target →
      (tol : ℝ) < angle_difference (bearing (target.headD z) (target.getLastD z))
        (bearing (other.headD z) (other.getLastD z)) ∨
      average_polyline_distance target other 10 = 0) :
    find_parallel_edge target all_roads tol = (none, 0) := by
  have hdef : find_parallel_edge target all_roads tol =
      ((fpeLoop target (bearing (target.headD z) (target.getLastD z)) tol
          all_roads none none).1,
       (fpeLoop target (bearing (target.headD z) (target.getLastD z)) tol
          all_roads none none).2.getD 0) := rfl
  rw [hdef, fpeLoop_none _ _ _ all_roads h]
  rfl

/-! ### Concrete evaluation helpers for the width estimator. -/

lemma dist_eq_of_sq {p1 p2 : Pt} {r : ℚ} (hr : 0 ≤ r) (h : sqDist p1 p2 = r * r) :
    dist p1 p2 = (r : ℝ) := by
  unfold dist
  rw [h]
  push_cast
  exact Real.sqrt_mul_self (by exact_mod_cast hr)

lemma polyline_length_pair (p q : Pt) : polyline_length [p, q] = dist p q := by
  simp [polyline_length]

lemma atan2_zero_pos {x : ℝ} (hx : 0 < x) : atan2 0 x = 0 := by
  unfold atan2
  rw [if_pos hx, zero_div, Real.arctan_zero]

lemma degrees_zero : degrees 0 = 0 := by
  unfold degrees
  simp

lemma realMod_self (b : ℝ) (hb : b ≠ 0) : realMod b b = 0 := by
  unfold realMod
  rw [div_self hb, Int.floor_one]
  simp

lemma realMod_zero_left (b : ℝ) : realMod 0 b = 0 := by
  unfold realMod
  simp

lemma bearing_horizontal {x1 x2 y1 : ℚ} (h : x1 < x2) : bearing (x1, y1) (x2, y1) = 0 := by
  unfold bearing
  have hdy : ((y1 - y1 : ℚ) : ℝ) = 0 := by push_cast; ring
  have hdx : (0 : ℝ) < ((x2 - x1 : ℚ) : ℝ) := by
    have : (0 : ℚ) < x2 - x1 := sub_pos.mpr h
    exact_mod_cast this
  rw [hdy, atan2_zero_pos hdx, degrees_zero, zero_add, realMod_self 360 (by norm_num)]

lemma angle_difference_self (a : ℝ) : angle_difference a a = 0 := by
  unfold angle_difference
  rw [sub_self, abs_zero, realMod_zero_left, if_pos (by norm_num : (0:ℝ) ≤ 180)]

lemma advanceTo_stuck {pl1 : Polyline} {target : ℝ} {segIndex : ℕ} {acc : ℝ} {p : Pt}
    (h : pl1.length - 1 ≤ segIndex) : ∀ fuel : ℕ,
    advanceTo pl1 target fuel segIndex acc p = (segIndex, acc, p) := by
  intro fuel
  cases fuel with
  | zero => rw [advanceTo]
  | succ n =>
    rw [advanceTo, if_neg]
    rintro ⟨h1, _⟩
    omega

lemma sampleLoop_succ (pl1 pl2 : Polyline) (step : ℝ) (n s segIndex : ℕ) (acc : ℝ)
    (p : Pt) (dists : List ℝ) :
    sampleLoop pl1 pl2 step (n + 1) s segIndex acc p dists =
      sampleLoop pl1 pl2 step n (s + 1)
        (advanceTo pl1 (step * ((s : ℝ) + 1)) pl1.length segIndex acc p).1
        (advanceTo pl1 (step * ((s : ℝ) + 1)) pl1.length segIndex acc p).2.1
        (advanceTo pl1 (step * ((s : ℝ) + 1)) pl1.length segIndex acc p).2.2
        (dists ++ [minVertexDist
          (advanceTo pl1 (step * ((s : ℝ) + 1)) pl1.length segIndex acc p).2.2 pl2]) := rfl

/-- Once the walk has consumed all segments, every remaining sample measures
from the same point. -/
lemma sampleLoop_stuck (pl1 pl2 : Polyline) (step : ℝ) :
    ∀ (n s segIndex : ℕ) (acc : ℝ) (p : Pt) (dists : List ℝ),
      pl1.length - 1 ≤ segIndex →
      sampleLoop pl1 pl2 step n s segIndex acc p dists
        = dists ++ List.replicate n (minVertexDist p pl2) := by
  intro n
  induction n with
  | zero => intros s segIndex acc p dists h; rw [sampleLoop]; simp
  | succ m ih =>
    intro s segIndex acc p dists h
    rw [sampleLoop_succ, advanceTo_stuck h]
    rw [ih (s + 1) segIndex acc p _ h]
    rw [List.append_assoc]
    rw [List.replicate_succ]
    rfl

/-! ### Evaluation of the parallel-width scenario
`(0,0)-(10,0)` against `(0,5)-(10,5)`. -/

lemma dist_00_100 : dist ((0:ℚ),(0:ℚ)) ((10:ℚ),(0:ℚ)) = 10 :=
  dist_eq_of_sq (by norm_num) (by norm_num [sqDist])

lemma minVD_eval :
    minVertexDist ((10:ℚ),(0:ℚ)) [((0:ℚ),(5:ℚ)), ((10:ℚ),(5:ℚ))] = 5 := by
  unfold minVertexDist
  simp only [List.map_cons, List.map_nil, List.foldl_cons, List.foldl_nil]
  rw [dist_eq_of_sq (show (0:ℚ) ≤ 5 by norm_num)
    (show sqDist ((10:ℚ),(0:ℚ)) ((10:ℚ),(5:ℚ)) = 5 * 5 by norm_num [sqDist])]
  apply min_eq_right
  unfold dist
  rw [show ((sqDist ((10:ℚ),(0:ℚ)) ((0:ℚ),(5:ℚ)) : ℚ) : ℝ) = 125 by norm_num [sqDist]]
  apply Real.le_sqrt_of_sq_le
  norm_num

lemma adv_eval :
    advanceTo [((0:ℚ),(0:ℚ)), ((10:ℚ),(0:ℚ))] 1 2 0 0 ((0:ℚ),(0:ℚ))
      = (1, 10, ((10:ℚ),(0:ℚ))) := by
  show advanceTo [((0:ℚ),(0:ℚ)), ((10:ℚ),(0:ℚ))] 1 (1 + 1) 0 0 ((0:ℚ),(0:ℚ))
      = (1, 10, ((10:ℚ),(0:ℚ)))
  rw [advanceTo, if_pos (by norm_num : 0 < ([((0:ℚ),(0:ℚ)), ((10:ℚ),(0:ℚ))] : Polyline).length - 1 ∧ (0:ℝ) < 1)]
  simp only [List.getD, List.get?, Option.getD]
  rw [advanceTo_stuck (by norm_num)]
  rw [dist_00_100]
  norm_num

lemma avg_eval :
    average_polyline_distance [((0:ℚ),(0:ℚ)), ((10:ℚ),(0:ℚ))]
      [((0:ℚ),(5:ℚ)), ((10:ℚ),(5:ℚ))] 10 = 5 := by
  have hlen : polyline_length [((0:ℚ),(0:ℚ)), ((10:ℚ),(0:ℚ))] = 10 := by
    rw [polyline_length_pair, dist_00_100]
  unfold average_polyline_distance
  rw [if_neg (by simp), hlen, if_neg (by norm_num : ¬ (10:ℝ) = 0)]
  have hstep : (10 : ℝ) / (10 : ℕ) = 1 := by norm_num
  rw [hstep]
  have hloop : sampleLoop [((0:ℚ),(0:ℚ)), ((10:ℚ),(0:ℚ))]
      [((0:ℚ),(5:ℚ)), ((10:ℚ),(5:ℚ))] 1 10 0 0 0
      (([((0:ℚ),(0:ℚ)), ((10:ℚ),(0:ℚ))] : Polyline).headD z) []
      = List.replicate 10 5 := by
    rw [show (([((0:ℚ),(0:ℚ)), ((10:ℚ),(0:ℚ))] : Polyline).headD z) = ((0:ℚ),(0:ℚ)) from rfl]
    rw [sampleLoop_succ]
    rw [show (1 : ℝ) * ((0 : ℕ) + 1 : ℝ) = 1 by norm_num]
    rw [show (([((0:ℚ),(0:ℚ)), ((10:ℚ),(0:ℚ))] : Polyline).length) = 2 from rfl]
    rw [adv_eval]
    simp only
    rw [minVD_eval]
    rw [sampleLoop_stuck _ _ _ _ _ _ _ _ _ (by norm_num)]
    rw [minVD_eval]
    rfl
  rw [hloop]
  rw [if_neg (by simp)]
  unfold npMean
  rw [List.sum_replicate, List.length_replicate]
  norm_num

lemma fpe_eval :
    find_parallel_edge [((0:ℚ),(0:ℚ)), ((10:ℚ),(0:ℚ))]
      [[((0:ℚ),(0:ℚ)), ((10:ℚ),(0:ℚ))], [((0:ℚ),(5:ℚ)), ((10:ℚ),(5:ℚ))]] 60
      = (some [((0:ℚ),(5:ℚ)), ((10:ℚ),(5:ℚ))], 5) := by
  have hang : bearing (([((0:ℚ),(0:ℚ)), ((10:ℚ),(0:ℚ))] : Polyline).headD z)
      (([((0:ℚ),(0:ℚ)), ((10:ℚ),(0:ℚ))] : Polyline).getLastD z) = 0 := by
    rw [show (([((0:ℚ),(0:ℚ)), ((10:ℚ),(0:ℚ))] : Polyline).headD z) = ((0:ℚ),(0:ℚ)) from rfl]
    rw [show (([((0:ℚ),(0:ℚ)), ((10:ℚ),(0:ℚ))] : Polyline).getLastD z) = ((10:ℚ),(0:ℚ)) from rfl]
    exact bearing_horizontal (by norm_num)
  have hang2 : bearing (([((0:ℚ),(5:ℚ)), ((10:ℚ),(5:ℚ))] : Polyline).headD z)
      (([((0:ℚ),(5:ℚ)), ((10:ℚ),(5:ℚ))] : Polyline).getLastD z) = 0 := by
    rw [show (([((0:ℚ),(5:ℚ)), ((10:ℚ),(5:ℚ))] : Polyline).headD z) = ((0:ℚ),(5:ℚ)) from rfl]
    rw [show (([((0:ℚ),(5:ℚ)), ((10:ℚ),(5:ℚ))] : Polyline).getLastD z) = ((10:ℚ),(5:ℚ)) from rfl]
    exact bearing_horizontal (by norm_num)
  have hdef : find_parallel_edge [((0:ℚ),(0:ℚ)), ((10:ℚ),(0:ℚ))]
      [[((0:ℚ),(0:ℚ)), ((10:ℚ),(0:ℚ))], [((0:ℚ),(5:ℚ)), ((10:ℚ),(5:ℚ))]] 60
      = ((fpeLoop [((0:ℚ),(0:ℚ)), ((10:ℚ),(0:ℚ))]
            (bearing (([((0:ℚ),(0:ℚ)), ((10:ℚ),(0:ℚ))] : Polyline).headD z)
              (([((0:ℚ),(0:ℚ)), ((10:ℚ),(0:ℚ))] : Polyline).getLastD z)) 60
            [[((0:ℚ),(0:ℚ)), ((10:ℚ),(0:ℚ))], [((0:ℚ),(5:ℚ)), ((10:ℚ),(5:ℚ))]]
            none none).1,
         (fpeLoop [((0:ℚ),(0:ℚ)), ((10:ℚ),(0:ℚ))]
            (bearing (([((0:ℚ),(0:ℚ)), ((10:ℚ),(0:ℚ))] : Polyline).headD z)
              (([((0:ℚ),(0:ℚ)), ((10:ℚ),(0:ℚ))] : Polyline).getLastD z)) 60
            [[((0:ℚ),(0:ℚ)), ((10:ℚ),(0:ℚ))], [((0:ℚ),(5:ℚ)), ((10:ℚ),(5:ℚ))]]
            none none).2.getD 0) := rfl
  rw [hdef, hang]
  rw [fpeLoop, if_pos rfl]
  rw [fpeLoop, if_neg (by norm_num), if_pos (by rw [hang2, angle_difference_self]; norm_num)]
  rw [if_pos (by rw [avg_eval]; exact ⟨by norm_num, trivial⟩)]
  rw [fpeLoop]
  rw [avg_eval]
  rfl

/-! ### Evaluation of the pipeline on a single isolated 40-unit road. -/

lemma round2_zero : round2 0 = 0 := by
  unfold round2 roundHalfEven
  norm_num

lemma round2_forty : round2 40 = 40 := by
  unfold round2 roundHalfEven
  norm_num

lemma fpe_self (r : Polyline) (tol : ℚ) : find_parallel_edge r [r] tol = (none, 0) := by
  have hdef : find_parallel_edge r [r] tol =
      ((fpeLoop r (bearing (r.headD z) (r.getLastD z)) tol [r] none none).1,
       (fpeLoop r (bearing (r.headD z) (r.getLastD z)) tol [r] none none).2.getD 0) := rfl
  rw [hdef, fpeLoop, if_pos rfl, fpeLoop]
  rfl

lemma len40_eval : polyline_length [((0:ℚ),(0:ℚ)), ((40:ℚ),(0:ℚ))] = 40 := by
  rw [polyline_length_pair]
  exact dist_eq_of_sq (by norm_num) (by norm_num [sqDist])

lemma merge_single_eval :
    merge_polylines [[((0:ℚ),(0:ℚ)), ((40:ℚ),(0:ℚ))]] 2
      = [[((0:ℚ),(0:ℚ)), ((40:ℚ),(0:ℚ))]] := by
  norm_num [merge_polylines, mergeLoop, growCurrent, scanPool, z]

lemma cluster_single_eval :
    cluster_roads [[((0:ℚ),(0:ℚ)), ((40:ℚ),(0:ℚ))]] 10
      = [[((0:ℚ),(0:ℚ)), ((40:ℚ),(0:ℚ))]] := by
  norm_num [cluster_roads, clusterLoop, clusterGrow, clusterPass, z]

lemma final_single_eval :
    finalRoads [[((0:ℚ),(0:ℚ)), ((40:ℚ),(0:ℚ))]] 30 15
      = [[((0:ℚ),(0:ℚ)), ((40:ℚ),(0:ℚ))]] := by
  unfold finalRoads
  rw [List.filter_cons]
  rw [decide_eq_true (show ((30:ℚ):ℝ) < polyline_length [((0:ℚ),(0:ℚ)), ((40:ℚ),(0:ℚ))] by
    rw [len40_eval]; norm_num)]
  rfl

lemma mkRoad_single_eval :
    mkRoad 1 [((0:ℚ),(0:ℚ)), ((40:ℚ),(0:ℚ))] [[((0:ℚ),(0:ℚ)), ((40:ℚ),(0:ℚ))]] 0 60 1
      = ⟨1, ((0:ℚ),(0:ℚ)), ((40:ℚ),(0:ℚ)), 40, 40, 0, 0,
          [((0:ℚ),(0:ℚ)), ((40:ℚ),(0:ℚ))]⟩ := by
  unfold mkRoad
  rw [if_neg (by norm_num : ¬ (0:ℚ) < 0)]
  rw [fpe_self]
  have h1 : (([((0:ℚ),(0:ℚ)), ((40:ℚ),(0:ℚ))] : Polyline).headD z) = ((0:ℚ),(0:ℚ)) := rfl
  have h2 : (([((0:ℚ),(0:ℚ)), ((40:ℚ),(0:ℚ))] : Polyline).getLastD z) = ((40:ℚ),(0:ℚ)) := rfl
  rw [h1, h2, len40_eval]
  simp only [round2_zero, round2_forty]
  norm_num

lemma analyze_single_eval :
    analyze_roads [[((0:ℚ),(0:ℚ)), ((40:ℚ),(0:ℚ))]] [] 2 10 60 1 30 15
      = [⟨1, ((0:ℚ),(0:ℚ)), ((40:ℚ),(0:ℚ)), 40, 40, 0, 0,
          [((0:ℚ),(0:ℚ)), ((40:ℚ),(0:ℚ))]⟩] := by
  unfold analyze_roads
  simp only [merge_single_eval, cluster_single_eval, final_single_eval, List.filter_nil,
    List.enum, List.enumFrom, List.map, if_true, eq_self_iff_true, Nat.zero_add]
  rw [mkRoad_single_eval]

/-! ### Properties of the final filter/truncate stage. -/

lemma analyze_roads_eq (polys : List Polyline) (widths : List ℚ)
    (mt cd atol sc minL : ℚ) (maxR : ℕ) :
    analyze_roads polys widths mt cd atol sc minL maxR
      = (finalRoads (cluster_roads (merge_polylines polys mt) cd) minL maxR).enum.map
          (fun jr => mkRoad (jr.1 + 1) jr.2
            (finalRoads (cluster_roads (merge_polylines polys mt) cd) minL maxR)
            (if widths.filter (fun w => decide ((0:ℚ) < w)) = [] then 0
             else (widths.filter (fun w => decide ((0:ℚ) < w))).sum
               / ((widths.filter (fun w => decide ((0:ℚ) < w))).length : ℚ))
            atol sc) := rfl

lemma mkRoad_length_units (i : ℕ) (road : Polyline) (fr : List Polyline)
    (g atol sc : ℚ) : (mkRoad i road fr g atol sc).length_units = polyline_length road := rfl

lemma finalRoads_mem_length {clustered : List Polyline} {minL : ℚ} {maxR : ℕ}
    {r : Polyline} (h : r ∈ finalRoads clustered minL maxR) :
    (minL : ℝ) < polyline_length r := by
  unfold finalRoads at h
  have h1 : r ∈ clustered.filter fun r => decide ((minL : ℝ) < polyline_length r) :=
    List.mem_of_mem_take h
  exact of_decide_eq_true (List.mem_filter.mp h1).2

lemma finalRoads_length_le (clustered : List Polyline) (minL : ℚ) (maxR : ℕ) :
    (finalRoads clustered minL maxR).length ≤ maxR := by
  unfold finalRoads
  rw [List.length_take]
  exact min_le_left _ _

lemma finalRoads_sublist (clustered : List Polyline) (minL : ℚ) (maxR : ℕ) :
    List.Sublist (finalRoads clustered minL maxR) clustered :=
  (List.take_sublist _ _).trans (List.filter_sublist _)

/-! ## The claims -/

/-- C1: for every finite list of nonempty input polylines and every tolerance
ε ≥ 0, no two distinct polylines returned by `merge_polylines` have a pair of
endpoints (first or last point of one against first or last point of the
other) at Euclidean distance less than ε. -/
theorem merge_endpoint_separation (L : List Polyline) (t : ℚ) (ht : 0 ≤ t)
    (hne : ∀ pl ∈ L, pl ≠ []) :
    List.Pairwise
      (fun A B => ∀ a ∈ endpoints A, ∀ b ∈ endpoints B, ¬ dist a b < (t : ℝ))
      (merge_polylines L t) := by
  have hpw := (merge_pairwise_sep L t hne).1
  exact hpw.imp
    (fun hAB a ha b hb hlt => hAB a ha b hb ((distLt_iff_dist_lt a b t).mpr hlt))

/-- Witness for C1 at a concrete input. -/
theorem merge_endpoint_separation_witness :
    (0:ℚ) ≤ 2 ∧
    (∀ pl ∈ ([[((0:ℚ),(0:ℚ)),(10,0)], [(13,0),(20,0)]] : List Polyline), pl ≠ []) ∧
    List.Pairwise
      (fun A B => ∀ a ∈ endpoints A, ∀ b ∈ endpoints B, ¬ dist a b < ((2:ℚ) : ℝ))
      (merge_polylines [[((0:ℚ),(0:ℚ)),(10,0)], [(13,0),(20,0)]] 2) :=
  ⟨by norm_num, by simp,
    merge_endpoint_separation [[((0:ℚ),(0:ℚ)),(10,0)], [(13,0),(20,0)]] 2
      (by norm_num) (by simp)⟩

/-- C2 counterexample: with tolerance 2, the inputs `[(0,0),(10,0)]` and
`[(11,0),(20,0)]` splice across the 1-unit gap and the spliced polyline's
endpoint `(10,0)` is dropped: it occurs in an input polyline but in no
output polyline, refuting "every input point appears in exactly one output
polyline". -/
theorem merge_drops_point_cex :
    merge_polylines [[((0:ℚ),(0:ℚ)),(10,0)], [(11,0),(20,0)]] 2
      = [[(0,0),(11,0),(20,0)]] ∧
    ((10:ℚ),(0:ℚ)) ∈ ([((0:ℚ),(0:ℚ)),(10,0)] : Polyline) ∧
    ((10:ℚ),(0:ℚ)) ∉ ([((0:ℚ),(0:ℚ)),(11,0),(20,0)] : Polyline) := by
  refine ⟨?_, by simp, by norm_num⟩
  norm_num [merge_polylines, mergeLoop, growCurrent, scanPool, spliceStep, distLt, sqDist, z]

/-- C2 (amended): no output point is invented or duplicated — the multiset
of output points is a sub-multiset of the input points — and exactly one
point is dropped per splice, so the dropped-point count equals the number of
input polylines minus the number of output polylines; in particular not
every input point need appear in an output. -/
theorem merge_point_conservation (L : List Polyline) (t : ℚ)
    (hne : ∀ pl ∈ L, pl ≠ []) :
    allPts (merge_polylines L t) ≤ allPts L ∧
    ∃ D : Multiset Pt, allPts (merge_polylines L t) + D = allPts L ∧
      Multiset.card D + (merge_polylines L t).length = L.length := by
  obtain ⟨D, hD, hDc⟩ := mergeLoop_multiset t L.length L [] (le_refl _) hne
  rw [allPts_nil, zero_add] at hD
  simp only [List.length_nil, zero_add] at hDc
  exact ⟨Multiset.le_iff_exists_add.mpr ⟨D, hD.symm⟩, D, hD, hDc⟩

/-- Witness for the amended C2 at a concrete input. -/
theorem merge_point_conservation_witness :
    (∀ pl ∈ ([[((0:ℚ),(0:ℚ)),(10,0)], [(11,0),(20,0)]] : List Polyline), pl ≠ []) ∧
    (allPts (merge_polylines [[((0:ℚ),(0:ℚ)),(10,0)], [(11,0),(20,0)]] 2)
        ≤ allPts [[((0:ℚ),(0:ℚ)),(10,0)], [(11,0),(20,0)]] ∧
      ∃ D : Multiset Pt,
        allPts (merge_polylines [[((0:ℚ),(0:ℚ)),(10,0)], [(11,0),(20,0)]] 2) + D
            = allPts [[((0:ℚ),(0:ℚ)),(10,0)], [(11,0),(20,0)]] ∧
          Multiset.card D
              + (merge_polylines [[((0:ℚ),(0:ℚ)),(10,0)], [(11,0),(20,0)]] 2).length
            = ([[((0:ℚ),(0:ℚ)),(10,0)], [(11,0),(20,0)]] : List Polyline).length) :=
  ⟨by simp, merge_point_conservation [[((0:ℚ),(0:ℚ)),(10,0)], [(11,0),(20,0)]] 2 (by simp)⟩

/-- C3 counterexample: with cluster distance 2, the three paths
`[(12,12),(1,0),(12,10)]`, `[(10,10),(12,10)]`, `[(0,0),(20,0)]` produce two
corridors whose endpoints `(0,0)` and `(1,0)` are at distance 1 < 2: the
exact-equality deduplication makes the second corridor end at an interior
point of an absorbed path, which was never compared against the first
corridor. -/
theorem cluster_endpoint_separation_cex :
    cluster_roads [[((12:ℚ),(12:ℚ)),(1,0),(12,10)], [(10,10),(12,10)], [(0,0),(20,0)]] 2
      = [[(0,0),(20,0)], [(10,10),(12,10),(12,12),(1,0)]] ∧
    ((0:ℚ),(0:ℚ)) ∈ endpoints [((0:ℚ),(0:ℚ)),(20,0)] ∧
    ((1:ℚ),(0:ℚ)) ∈ endpoints [((10:ℚ),(10:ℚ)),(12,10),(12,12),(1,0)] ∧
    dist ((0:ℚ),(0:ℚ)) ((1:ℚ),(0:ℚ)) < ((2:ℚ) : ℝ) := by
  refine ⟨?_, ?_, ?_, ?_⟩
  · norm_num [cluster_roads, clusterLoop, clusterGrow, clusterPass, EndClose, endpoints,
      distLt, sqDist, z]
  · simp [endpoints, List.getLastD]
  · simp [endpoints, List.getLastD]
  · exact (distLt_iff_dist_lt _ _ 2).mp ⟨by norm_num, by norm_num [sqDist]⟩

/-- C3 (amended): for every list of nonempty merged paths and every cluster
distance δ, no two distinct corridors returned by `cluster_roads` have their
*first* points at Euclidean distance less than δ (the full first/last
endpoint-pair guarantee fails, as the counterexample shows, because
exact-value deduplication can turn a corridor's last point into an interior
point of an absorbed path). -/
theorem cluster_first_point_separation (L : List Polyline) (d : ℚ)
    (hne : ∀ r ∈ L, r ≠ []) :
    List.Pairwise
      (fun A B => ¬ dist (A.headD z) (B.headD z) < (d : ℝ))
      (cluster_roads L d) := by
  exact (cluster_head_pairwise L d hne).imp
    (fun h hlt => h ((distLt_iff_dist_lt _ _ d).mpr hlt))

/-- Witness for the amended C3 at a concrete input. -/
theorem cluster_first_point_separation_witness :
    (∀ r ∈ ([[((12:ℚ),(12:ℚ)),(1,0),(12,10)], [(10,10),(12,10)], [(0,0),(20,0)]] :
        List Polyline), r ≠ []) ∧
    List.Pairwise
      (fun A B => ¬ dist (A.headD z) (B.headD z) < ((2:ℚ) : ℝ))
      (cluster_roads [[((12:ℚ),(12:ℚ)),(1,0),(12,10)], [(10,10),(12,10)], [(0,0),(20,0)]] 2) :=
  ⟨by simp,
    cluster_first_point_separation
      [[((12:ℚ),(12:ℚ)),(1,0),(12,10)], [(10,10),(12,10)], [(0,0),(20,0)]] 2 (by simp)⟩

/-- C4 counterexample: adding a degenerate (single-vertex, zero-length)
entity to a batch leaves the extraction result unchanged — the return value
is only `(polylines, widths)`, so no running count of skipped entries is
returned to the caller. -/
theorem extract_no_skip_counter_cex :
    extract_polylines [(⟨"0", [⟨0,0,none,none⟩, ⟨20,0,none,none⟩]⟩ : LWEntity),
        ⟨"0", [⟨5,5,none,none⟩]⟩] ["0"]
      = extract_polylines [(⟨"0", [⟨0,0,none,none⟩, ⟨20,0,none,none⟩]⟩ : LWEntity)] ["0"] := by
  have h := extract_skip_degenerate ["0"] ⟨"0", [⟨5,5,none,none⟩]⟩ (by norm_num)
    [⟨"0", [⟨0,0,none,none⟩, ⟨20,0,none,none⟩]⟩] []
  simpa using h

/-- C4 (amended): a degenerate entity (fewer than 2 points, hence zero
length) anywhere in the batch is skipped silently and the rest of the batch
is processed unchanged — the batch is never aborted — but no skip counter is
returned to the caller (the result is identical with or without the
degenerate entry). -/
theorem extract_skips_degenerate_silently (rl : List String) (e : LWEntity)
    (hdeg : e.verts.length < 2) (xs ys : List LWEntity) :
    extract_polylines (xs ++ e :: ys) rl = extract_polylines (xs ++ ys) rl :=
  extract_skip_degenerate rl e hdeg xs ys

/-- Witness for the amended C4 at a concrete input. -/
theorem extract_skips_degenerate_silently_witness :
    ((⟨"0", [⟨5,5,none,none⟩]⟩ : LWEntity)).verts.length < 2 ∧
    extract_polylines ([⟨"1F8CE10", [⟨0,0,none,none⟩, ⟨20,0,none,none⟩]⟩]
        ++ (⟨"0", [⟨5,5,none,none⟩]⟩ : LWEntity) :: [⟨"1F8CE10", [⟨0,0,none,none⟩, ⟨0,20,none,none⟩]⟩])
        ["0", "1F8CE10"]
      = extract_polylines ([⟨"1F8CE10", [⟨0,0,none,none⟩, ⟨20,0,none,none⟩]⟩]
        ++ [⟨"1F8CE10", [⟨0,0,none,none⟩, ⟨0,20,none,none⟩]⟩]) ["0", "1F8CE10"] :=
  ⟨by norm_num,
    extract_skips_degenerate_silently ["0", "1F8CE10"] ⟨"0", [⟨5,5,none,none⟩]⟩ (by norm_num)
      [⟨"1F8CE10", [⟨0,0,none,none⟩, ⟨20,0,none,none⟩]⟩]
      [⟨"1F8CE10", [⟨0,0,none,none⟩, ⟨0,20,none,none⟩]⟩]⟩

/-- C5 counterexample: for a single isolated 40-unit road the pipeline emits
exactly the record `{index, start, end, length_units, length_m, width_units,
width_m, points}` with width 0 — the `Road` record embedded from the code's
`results.append({...})` has no unresolved flag; width 0 is the only
signal. -/
theorem unresolved_road_record_cex :
    analyze_roads [[((0:ℚ),(0:ℚ)), ((40:ℚ),(0:ℚ))]] [] 2 10 60 1 30 15
      = [⟨1, ((0:ℚ),(0:ℚ)), ((40:ℚ),(0:ℚ)), 40, 40, 0, 0,
          [((0:ℚ),(0:ℚ)), ((40:ℚ),(0:ℚ))]⟩] :=
  analyze_single_eval

/-- C5 (amended): when no other road lies within the bearing tolerance or
every candidate's average sampled distance is zero, `find_parallel_edge`
returns `(None, 0)` and the emitted record's width is 0; the embedding is
total, so no exception can be raised; but the record carries no unresolved
flag. -/
theorem unresolved_width_zero (target : Polyline) (all_roads : List Polyline) (tol : ℚ)
    (i : ℕ) (scale : ℚ)
    (h : ∀ other ∈ all_roads, other ≠ target →
      (tol : ℝ) < angle_difference (bearing (target.headD z) (target.getLastD z))
        (bearing (other.headD z) (other.getLastD z)) ∨
      average_polyline_distance target other 10 = 0) :
    find_parallel_edge target all_roads tol = (none, 0) ∧
    (mkRoad i target all_roads 0 tol scale).width_units = 0 := by
  have h1 := find_parallel_edge_unresolved target all_roads tol h
  refine ⟨h1, ?_⟩
  show (if (0:ℚ) < 0 then ((0:ℚ) : ℝ) else (find_parallel_edge target all_roads tol).2) = 0
  rw [if_neg (by norm_num), h1]

/-- Witness for the amended C5: a single isolated road. -/
theorem unresolved_width_zero_witness :
    (∀ other ∈ ([[((0:ℚ),(0:ℚ)), ((10:ℚ),(0:ℚ))]] : List Polyline),
      other ≠ [((0:ℚ),(0:ℚ)), ((10:ℚ),(0:ℚ))] →
      ((60:ℚ) : ℝ) < angle_difference
        (bearing (([((0:ℚ),(0:ℚ)), ((10:ℚ),(0:ℚ))] : Polyline).headD z)
          (([((0:ℚ),(0:ℚ)), ((10:ℚ),(0:ℚ))] : Polyline).getLastD z))
        (bearing (other.headD z) (other.getLastD z)) ∨
      average_polyline_distance [((0:ℚ),(0:ℚ)), ((10:ℚ),(0:ℚ))] other 10 = 0) ∧
    (find_parallel_edge [((0:ℚ),(0:ℚ)), ((10:ℚ),(0:ℚ))]
        [[((0:ℚ),(0:ℚ)), ((10:ℚ),(0:ℚ))]] 60 = (none, 0) ∧
      (mkRoad 1 [((0:ℚ),(0:ℚ)), ((10:ℚ),(0:ℚ))]
        [[((0:ℚ),(0:ℚ)), ((10:ℚ),(0:ℚ))]] 0 60 1).width_units = 0) :=
  ⟨fun other ho hne => absurd (List.mem_singleton.mp ho) hne,
    unresolved_width_zero [((0:ℚ),(0:ℚ)), ((10:ℚ),(0:ℚ))]
      [[((0:ℚ),(0:ℚ)), ((10:ℚ),(0:ℚ))]] 60 1 1
      (fun other ho hne => absurd (List.mem_singleton.mp ho) hne)⟩

/-- C6 counterexample: with tolerance 1, the single-point polyline `[(0,0)]`
is spliced into `[(0,0),(10,0)]` (its point matches the other polyline's
head), so it does not pass through as its own path: the output is a single
polyline and `[(0,0)]` is not an element of it. -/
theorem single_point_merged_cex :
    merge_polylines [[((0:ℚ),(0:ℚ)), ((10:ℚ),(0:ℚ))], [((0:ℚ),(0:ℚ))]] 1
      = [[((0:ℚ),(0:ℚ)), ((10:ℚ),(0:ℚ))]] ∧
    ([((0:ℚ),(0:ℚ))] : Polyline) ∉
      ([[((0:ℚ),(0:ℚ)), ((10:ℚ),(0:ℚ))]] : List Polyline) := by
  constructor
  · norm_num [merge_polylines, mergeLoop, growCurrent, scanPool, spliceStep, distLt, sqDist, z]
  · simp

/-- C6 (amended): a single-point polyline `[p]` passes through
`merge_polylines` as its own path provided `p` lies at distance ≥ ε from
every endpoint of every other input polyline; otherwise it can be spliced
like any other polyline (see the counterexample). -/
theorem single_point_isolated_passthrough (L : List Polyline) (t : ℚ) (p : Pt)
    (hne : ∀ pl ∈ L, pl ≠ []) (hmem : [p] ∈ L)
    (hfar : ∀ q ∈ L, q ≠ [p] → ∀ e ∈ endpoints q, ¬ dist p e < (t : ℝ)) :
    [p] ∈ merge_polylines L t := by
  apply mergeLoop_singleton t p L.length L [] (le_refl _) hne ?_ (Or.inl hmem)
  intro B hB
  by_cases hBp : B = [p]
  · exact Or.inl hBp
  · right
    intro e he hlt
    exact hfar B hB hBp e he ((distLt_iff_dist_lt p e t).mp hlt)

/-- Witness for the amended C6: an isolated single point survives. -/
theorem single_point_isolated_passthrough_witness :
    (∀ pl ∈ ([[((0:ℚ),(0:ℚ))], [(5,5),(6,6)]] : List Polyline), pl ≠ []) ∧
    ([((0:ℚ),(0:ℚ))] : Polyline) ∈ ([[((0:ℚ),(0:ℚ))], [(5,5),(6,6)]] : List Polyline) ∧
    (∀ q ∈ ([[((0:ℚ),(0:ℚ))], [(5,5),(6,6)]] : List Polyline),
      q ≠ [((0:ℚ),(0:ℚ))] → ∀ e ∈ endpoints q, ¬ dist ((0:ℚ),(0:ℚ)) e < ((1:ℚ) : ℝ)) ∧
    ([((0:ℚ),(0:ℚ))] : Polyline) ∈
      merge_polylines [[((0:ℚ),(0:ℚ))], [(5,5),(6,6)]] 1 := by
  have hfar : ∀ q ∈ ([[((0:ℚ),(0:ℚ))], [(5,5),(6,6)]] : List Polyline),
      q ≠ [((0:ℚ),(0:ℚ))] → ∀ e ∈ endpoints q, ¬ dist ((0:ℚ),(0:ℚ)) e < ((1:ℚ) : ℝ) := by
    intro q hq hqne e he hlt
    have hd := (distLt_iff_dist_lt ((0:ℚ),(0:ℚ)) e 1).mpr hlt
    simp only [List.mem_cons, List.mem_singleton, List.not_mem_nil, or_false] at hq
    rcases hq with rfl | rfl
    · exact hqne rfl
    · simp [endpoints, List.getLastD] at he
      rcases he with rfl | rfl <;>
        exact absurd hd (by norm_num [distLt, sqDist])
  exact ⟨by simp, by simp, hfar,
    single_point_isolated_passthrough [[((0:ℚ),(0:ℚ))], [(5,5),(6,6)]] 1 ((0:ℚ),(0:ℚ))
      (by simp) (by simp) hfar⟩

/-- C7: re-merging an already-merged list with the same tolerance returns
the identical set of polylines: no polyline is changed, added or removed
(as a multiset; the list itself comes back reversed because the loop pops
from the end of the pool and appends). -/
theorem merge_idempotent_multiset (L : List Polyline) (t : ℚ) (ht : 0 ≤ t)
    (hne : ∀ pl ∈ L, pl ≠ []) :
    (↑(merge_polylines (merge_polylines L t) t) : Multiset Polyline)
      = ↑(merge_polylines L t) := by
  rw [merge_merge_eq_reverse L t hne]
  exact Multiset.coe_reverse _

/-- Witness for C7 at a concrete input. -/
theorem merge_idempotent_multiset_witness :
    (0:ℚ) ≤ 2 ∧
    (∀ pl ∈ ([[((0:ℚ),(0:ℚ)),(10,0)], [(11,0),(20,0)]] : List Polyline), pl ≠ []) ∧
    (↑(merge_polylines (merge_polylines [[((0:ℚ),(0:ℚ)),(10,0)], [(11,0),(20,0)]] 2) 2)
        : Multiset Polyline)
      = ↑(merge_polylines [[((0:ℚ),(0:ℚ)),(10,0)], [(11,0),(20,0)]] 2) :=
  ⟨by norm_num, by simp,
    merge_idempotent_multiset [[((0:ℚ),(0:ℚ)),(10,0)], [(11,0),(20,0)]] 2
      (by norm_num) (by simp)⟩

/-- C8: every emitted `Road` has `length_units ≥ min_road_length`, the
number of emitted roads is at most `max_roads_output`, and the surviving
corridors are kept in encounter order (the final road list is a sublist of
the clustered corridor list). -/
theorem pipeline_filter_truncate (polys : List Polyline) (widths : List ℚ)
    (mt cd atol sc minL : ℚ) (maxR : ℕ) (rec : Road)
    (hrec : rec ∈ analyze_roads polys widths mt cd atol sc minL maxR) :
    (minL : ℝ) ≤ rec.length_units ∧
    (analyze_roads polys widths mt cd atol sc minL maxR).length ≤ maxR ∧
    List.Sublist (finalRoads (cluster_roads (merge_polylines polys mt) cd) minL maxR)
      (cluster_roads (merge_polylines polys mt) cd) := by
  rw [analyze_roads_eq] at hrec ⊢
  obtain ⟨jr, hjr, hrec⟩ := List.mem_map.mp hrec
  have hroad : jr.2 ∈ finalRoads (cluster_roads (merge_polylines polys mt) cd) minL maxR := by
    have := List.mem_enum_iff_getElem?.mp hjr
    exact List.getElem?_mem this
  refine ⟨?_, ?_, finalRoads_sublist _ _ _⟩
  · rw [← hrec, mkRoad_length_units]
    exact le_of_lt (finalRoads_mem_length hroad)
  · rw [List.length_map, List.enum_length]
    exact finalRoads_length_le _ _ _

/-- Witness for C8: the single isolated 40-unit road with
`min_road_length = 30`, `max_roads_output = 15`. -/
theorem pipeline_filter_truncate_witness :
    ((⟨1, ((0:ℚ),(0:ℚ)), ((40:ℚ),(0:ℚ)), 40, 40, 0, 0,
        [((0:ℚ),(0:ℚ)), ((40:ℚ),(0:ℚ))]⟩ : Road)
      ∈ analyze_roads [[((0:ℚ),(0:ℚ)), ((40:ℚ),(0:ℚ))]] [] 2 10 60 1 30 15) ∧
    (((30:ℚ) : ℝ) ≤ (⟨1, ((0:ℚ),(0:ℚ)), ((40:ℚ),(0:ℚ)), 40, 40, 0, 0,
        [((0:ℚ),(0:ℚ)), ((40:ℚ),(0:ℚ))]⟩ : Road).length_units ∧
      (analyze_roads [[((0:ℚ),(0:ℚ)), ((40:ℚ),(0:ℚ))]] [] 2 10 60 1 30 15).length ≤ 15 ∧
      List.Sublist
        (finalRoads (cluster_roads
          (merge_polylines [[((0:ℚ),(0:ℚ)), ((40:ℚ),(0:ℚ))]] 2) 10) 30 15)
        (cluster_roads (merge_polylines [[((0:ℚ),(0:ℚ)), ((40:ℚ),(0:ℚ))]] 2) 10)) := by
  have hmem : (⟨1, ((0:ℚ),(0:ℚ)), ((40:ℚ),(0:ℚ)), 40, 40, 0, 0,
      [((0:ℚ),(0:ℚ)), ((40:ℚ),(0:ℚ))]⟩ : Road)
      ∈ analyze_roads [[((0:ℚ),(0:ℚ)), ((40:ℚ),(0:ℚ))]] [] 2 10 60 1 30 15 := by
    rw [analyze_single_eval]
    exact List.mem_singleton.mpr rfl
  exact ⟨hmem, pipeline_filter_truncate [[((0:ℚ),(0:ℚ)), ((40:ℚ),(0:ℚ))]] [] 2 10 60 1 30 15
    _ hmem⟩

/-- C9: for the two-road set `[(0,0),(10,0)]` and `[(0,5),(10,5)]` with
angle tolerance 60° and 10 samples, the geometric width estimate of
`find_parallel_edge` is exactly 5, hence within 0.5% of 5 (in
`[4.975, 5.025]`). -/
theorem parallel_width_five :
    (find_parallel_edge [((0:ℚ),(0:ℚ)), ((10:ℚ),(0:ℚ))]
        [[((0:ℚ),(0:ℚ)), ((10:ℚ),(0:ℚ))], [((0:ℚ),(5:ℚ)), ((10:ℚ),(5:ℚ))]] 60).2 = 5 ∧
    (4.975 : ℝ) ≤ (find_parallel_edge [((0:ℚ),(0:ℚ)), ((10:ℚ),(0:ℚ))]
        [[((0:ℚ),(0:ℚ)), ((10:ℚ),(0:ℚ))], [((0:ℚ),(5:ℚ)), ((10:ℚ),(5:ℚ))]] 60).2 ∧
    (find_parallel_edge [((0:ℚ),(0:ℚ)), ((10:ℚ),(0:ℚ))]
        [[((0:ℚ),(0:ℚ)), ((10:ℚ),(0:ℚ))], [((0:ℚ),(5:ℚ)), ((10:ℚ),(5:ℚ))]] 60).2
      ≤ (5.025 : ℝ) := by
  have h2 : (find_parallel_edge [((0:ℚ),(0:ℚ)), ((10:ℚ),(0:ℚ))]
      [[((0:ℚ),(0:ℚ)), ((10:ℚ),(0:ℚ))], [((0:ℚ),(5:ℚ)), ((10:ℚ),(5:ℚ))]] 60).2 = 5 := by
    rw [fpe_eval]
  exact ⟨h2, by rw [h2]; norm_num, by rw [h2]; norm_num⟩

/-- C10: the `road_LW.py` variants of `merge_polylines` and `cluster_roads`
pop from the caller's list itself: after the call returns, the argument
list state is empty, so any nonempty original fragment collection is
destroyed rather than preserved. -/
theorem roadLW_pools_consumed (L M : List Polyline) (t d : ℚ)
    (hL : L ≠ []) (hM : M ≠ []) :
    merge_polylines_pool_after L t = [] ∧ merge_polylines_pool_after L t ≠ L ∧
    cluster_roads_pool_after M d = [] ∧ cluster_roads_pool_after M d ≠ M := by
  have h1 : merge_polylines_pool_after L t = [] :=
    mergeLoop_snd_eq_nil t L.length L [] (le_refl _)
  have h2 : cluster_roads_pool_after M d = [] :=
    clusterLoop_snd_eq_nil d M.length M [] (le_refl _)
  exact ⟨h1, by rw [h1]; exact fun hc => hL hc.symm, h2,
    by rw [h2]; exact fun hc => hM hc.symm⟩

/-- Witness for C10 at concrete inputs. -/
theorem roadLW_pools_consumed_witness :
    ([[((0:ℚ),(0:ℚ)),(10,0)]] : List Polyline) ≠ [] ∧
    ([[((1:ℚ),(1:ℚ)),(2,2)]] : List Polyline) ≠ [] ∧
    (merge_polylines_pool_after [[((0:ℚ),(0:ℚ)),(10,0)]] 1 = [] ∧
      merge_polylines_pool_after [[((0:ℚ),(0:ℚ)),(10,0)]] 1 ≠ [[((0:ℚ),(0:ℚ)),(10,0)]] ∧
      cluster_roads_pool_after [[((1:ℚ),(1:ℚ)),(2,2)]] 10 = [] ∧
      cluster_roads_pool_after [[((1:ℚ),(1:ℚ)),(2,2)]] 10 ≠ [[((1:ℚ),(1:ℚ)),(2,2)]]) :=
  ⟨by simp, by simp,
    roadLW_pools_consumed [[((0:ℚ),(0:ℚ)),(10,0)]] [[((1:ℚ),(1:ℚ)),(2,2)]] 1 10
      (by simp) (by simp)⟩

end RoadMap
